import Mathlib

/-!
A shallow embedding of the configuration-assembly subsystem of oragono
(`irc/config.go`): the operator-class resolver (`OperatorClasses`), the
operator binder (`Operators`), and the logging-directive normalizer (the
logging portion of `LoadConfig`), together with theorems about their
behaviour.

Go maps are modelled as association lists (`List (String × α)`): a Go map
has pairwise-distinct keys, and its unspecified iteration order becomes the
list order, so one list value corresponds to one possible run of the Go
code and permutations of the list correspond to different iteration orders.
-/

set_option autoImplicit false

/-- Go `strings.ToLower`, restricted to ASCII input, applied character by
character (`Char.toLower` lowers exactly the ASCII uppercase range). -/
def lowerStr (s : String) : String := String.mk (s.data.map Char.toLower)

/-- Accumulator worker for `goSplitSpace`. -/
def goSplitSpaceAux : List Char → List Char → List String
  | [], cur => [String.mk cur.reverse]
  | c :: rest, cur =>
    if c = ' ' then String.mk cur.reverse :: goSplitSpaceAux rest []
    else goSplitSpaceAux rest (c :: cur)

/-- Go `strings.Split(s, " ")`: split at every single space, keeping empty
fields (so `""` splits to `[""]` and `" "` splits to `["", ""]`). -/
def goSplitSpace (s : String) : List String := goSplitSpaceAux s.data []

/-- Whether `sub` occurs as a contiguous run inside the second list. -/
def strContainsList (sub : List Char) : List Char → Bool
  | [] => sub.isEmpty
  | c :: t => sub.isPrefixOf (c :: t) || strContainsList sub t

/-- Go `strings.Contains(s, sub)`. -/
def goStringsContains (s sub : String) : Bool := strContainsList sub.data s.data

/-- Go `strings.TrimSpace`: whitespace removed from both ends. -/
def goTrimSpace (s : String) : String :=
  String.mk (((s.data.dropWhile Char.isWhitespace).reverse.dropWhile Char.isWhitespace).reverse)

/-- Lookup in an association list modelling a Go map read `m[k]`. -/
def alookup {α : Type} (k : String) : List (String × α) → Option α
  | [] => none
  | (a, b) :: t => if k = a then some b else alookup k t

/-- Key list of an association list modelling a Go map. -/
def keysOf {α : Type} (l : List (String × α)) : List String := l.map Prod.fst

/-- `OperClassConfig` from config.go: one raw operator-class record. -/
structure OperClassConfig where
  Title : String
  WhoisLine : String
  Extends : String
  Capabilities : List String
  deriving DecidableEq

/-- `OperClass` from config.go: an assembled operator class.  The Go
capability map `map[string]bool` (every stored value is `true`) is modelled
by its key set. -/
structure OperClass where
  Title : String
  WhoisLine : String
  Capabilities : Finset String
  deriving DecidableEq

/-- `OperConfig` from config.go: one raw operator record. -/
structure OperConfig where
  Class : String
  Vhost : String
  WhoisLine : String
  Password : String
  Modes : String
  deriving DecidableEq

/-- `Oper` from config.go: one assembled operator record.  The Go field
`Class *OperClass` is modelled by value, and the decoded password bytes by a
list of numbers. -/
structure Oper where
  Class : OperClass
  WhoisLine : String
  Vhost : String
  Pass : List Nat
  Modes : String
  deriving DecidableEq

/-- Every distinct terminal error of the embedded fragment of config.go.
`emptyTitleIndex` stands for the Go runtime panic raised by `oc.Title[0]`
when the title is empty (the one non-error abnormal exit of the resolver):
the embedding is total, so the out-of-range index becomes an error value. -/
inductive ConfigError where
  | loopingDependency
  | missingBase (name base : String)
  | emptyTitleIndex
  | fuelExhausted
  | casefoldFailed (name : String)
  | unknownClass (oper cls : String)
  | fileFilenameMismatch
  | unknownLevel (level : String)
  | bareNegationType
  | noLogTypes
  deriving DecidableEq

instance {ε α : Type} [DecidableEq ε] [DecidableEq α] : DecidableEq (Except ε α) := fun x y =>
  match x, y with
  | .error a, .error b =>
    if h : a = b then isTrue (by rw [h]) else isFalse (fun hh => h (Except.error.inj hh))
  | .error _, .ok _ => isFalse (fun hh => Except.noConfusion hh)
  | .ok _, .error _ => isFalse (fun hh => Except.noConfusion hh)
  | .ok a, .ok b =>
    if h : a = b then isTrue (by rw [h]) else isFalse (fun hh => h (Except.ok.inj hh))

/-- Lines 303-312 of config.go, the whois-line defaulting, as a total
function of the title: `none` models the index-out-of-range panic of
`oc.Title[0]` on an empty title.  The vowel test is translated verbatim:
`strings.Contains(strings.ToLower(string(oc.Title[0])), "aeiou")` asks
whether the five-character string `"aeiou"` occurs inside the one-character
lowercased title head. -/
def whoisDefault (title : String) : Option String :=
  match title.data with
  | [] => none
  | c :: _ =>
    let base := "is a"
    let base := if goStringsContains (lowerStr (String.mk [c])) "aeiou" then base ++ "n" else base
    some (base ++ " " ++ title)

/-- The whois line a record resolves to: the explicit override when non-empty,
else the default of `whoisDefault` (lines 303-312 of config.go). -/
def specWhois (info : OperClassConfig) : Option String :=
  if info.WhoisLine.length > 0 then some info.WhoisLine else whoisDefault info.Title

/-- Lines 286-302 of config.go: the capability set of a freshly assembled
class.  When the record extends, the base's capabilities are copied from the
partial result map (a missing base reads as the zero-value empty map, as in
`einfo, _ := ocs[info.Extends]`); the record's own capabilities are then
inserted one by one. -/
def resolveCaps (ocs : List (String × OperClass)) (info : OperClassConfig) : Finset String :=
  let base : Finset String :=
    if info.Extends.length > 0 then
      ((alookup info.Extends ocs).map (fun einfo => einfo.Capabilities)).getD ∅
    else ∅
  info.Capabilities.foldl (fun s c => insert c s) base

/-- Lines 285-312 of config.go: assemble one `OperClass` from a record and
the partial result map, or fail where the Go code panics on `Title[0]`. -/
def resolveClass (ocs : List (String × OperClass)) (info : OperClassConfig) :
    Except ConfigError OperClass :=
  match specWhois info with
  | none => .error .emptyTitleIndex
  | some w => .ok { Title := info.Title, WhoisLine := w, Capabilities := resolveCaps ocs info }

/-- Lines 268-315 of config.go: one full pass of the resolver over the raw
records.  `raw` is the whole record set (`conf.OperClasses`), `entries` the
records still to visit this pass, `ocs` the partial result (`ocs`), and the
final `Bool` is the pass's `anyMissing` flag. -/
def operClassesPass (raw : List (String × OperClassConfig)) :
    List (String × OperClassConfig) → List (String × OperClass) → Bool →
    Except ConfigError (List (String × OperClass) × Bool)
  | [], ocs, anyMissing => .ok (ocs, anyMissing)
  | (name, info) :: rest, ocs, anyMissing =>
    if (alookup name ocs).isSome then
      operClassesPass raw rest ocs anyMissing
    else if info.Extends.length > 0 && !(alookup info.Extends ocs).isSome then
      if (alookup info.Extends raw).isSome then
        operClassesPass raw rest ocs true
      else
        .error (.missingBase name info.Extends)
    else
      match resolveClass ocs info with
      | .error e => .error e
      | .ok oc => operClassesPass raw rest ((name, oc) :: ocs) anyMissing

/-- Lines 261-321 of config.go: the outer fixed-point loop.  `lenLast` is
`lenOfLastOcs` (initially `-1`); a pass that leaves the size unchanged makes
the next iteration fail with the looping-dependency error.  The Go loop is
unbounded but provably takes at most `raw.length + 2` iterations, so it is
embedded with that much fuel; `fuelExhausted` is proved unreachable below. -/
def operClassesLoop (raw : List (String × OperClassConfig)) :
    Nat → Int → List (String × OperClass) → Except ConfigError (List (String × OperClass))
  | 0, _, _ => .error .fuelExhausted
  | fuel + 1, lenLast, ocs =>
    if (ocs.length : Int) = lenLast then
      .error .loopingDependency
    else
      match operClassesPass raw raw ocs false with
      | .error e => .error e
      | .ok (ocs', anyMissing) =>
        if anyMissing then operClassesLoop raw fuel (ocs.length : Int) ocs'
        else .ok ocs'

/-- `(conf *Config) OperatorClasses()` (lines 257-324 of config.go): resolve
the raw operator-class map into assembled classes. -/
def operatorClasses (raw : List (String × OperClassConfig)) :
    Except ConfigError (List (String × OperClass)) :=
  operClassesLoop raw (raw.length + 2) (-1) []

/-- Worker for `operatorsMap`, one raw operator entry at a time (lines
338-363 of config.go).  `cf` models the external collaborator `CasefoldName`
(`none` is a casefold rejection) and `dp` models `DecodePasswordHash`; both
live outside the available source and are abstracted as parameters. -/
def operatorsAux (cf : String → Option String) (dp : String → List Nat)
    (oc : List (String × OperClass)) :
    List (String × OperConfig) → List (String × Oper) →
    Except ConfigError (List (String × Oper))
  | [], acc => .ok acc
  | (name, opConf) :: rest, acc =>
    match cf name with
    | none => .error (.casefoldFailed name)
    | some name' =>
      match alookup opConf.Class oc with
      | none => .error (.unknownClass name' opConf.Class)
      | some cls =>
        let oper : Oper :=
          { Class := cls
            Pass := dp opConf.Password
            Vhost := opConf.Vhost
            WhoisLine := if opConf.WhoisLine.length > 0 then opConf.WhoisLine else cls.WhoisLine
            Modes := goTrimSpace opConf.Modes }
        operatorsAux cf dp oc rest ((name', oper) :: acc)

/-- `(conf *Config) Operators(oc)` (lines 336-365 of config.go): bind every
raw operator record to its resolved class.  Go's `operators[name] = oper`
map write is modelled by consing, so `alookup` sees the latest binding. -/
def operatorsMap (cf : String → Option String) (dp : String → List Nat)
    (opers : List (String × OperConfig)) (oc : List (String × OperClass)) :
    Except ConfigError (List (String × Oper)) :=
  operatorsAux cf dp oc opers []

/-- `LoggingConfig` from config.go (the fields the normalizer touches). -/
structure LoggingConfig where
  Method : String
  MethodStdout : Bool
  MethodStderr : Bool
  MethodFile : Bool
  Filename : String
  TypeString : String
  Types : List String
  ExcludedTypes : List String
  LevelString : String
  Level : Nat
  deriving DecidableEq

/-- Modelled from the spec: the fixed name-to-level table
`logger.LogLevelNames` belongs to the logger package, which is not among the
available source files.  The spec says only that the level string is
lowercased and looked up in a fixed table and that `"info"` is a valid
level, so the table is modelled with the conventional level names. -/
def LogLevelNames : List (String × Nat) :=
  [("debug", 10), ("info", 20), ("warn", 30), ("warning", 30), ("error", 40)]

/-- Lines 451-456 of config.go: the set of method tokens — split the method
string on spaces, drop empty tokens, lowercase the rest. -/
def methodTokens (method : String) : List String :=
  ((goSplitSpace method).filter (fun t => t.length > 0)).map lowerStr

/-- Lines 472-485 of config.go: fold the type tokens into the included and
excluded type lists.  A bare `"-"` is an error; a token starting with `-`
goes, marker stripped, to the excluded list; anything else to the included
list; empty tokens are skipped. -/
def parseTypes : List String → List String → List String →
    Except ConfigError (List String × List String)
  | tys, extys, [] => .ok (tys, extys)
  | tys, extys, t :: rest =>
    if t.length = 0 then parseTypes tys extys rest
    else if t = "-" then .error .bareNegationType
    else
      match t.data with
      | '-' :: tl => parseTypes tys (extys ++ [String.mk tl]) rest
      | _ => parseTypes (tys ++ [t]) extys rest

/-- Lines 449-491 of config.go: normalize one logging directive — derive the
sink flags from the method tokens (rejecting `file` with an empty filename),
resolve the level against the level table, and parse the type string. -/
def normalizeLogConfig (lc : LoggingConfig) : Except ConfigError LoggingConfig :=
  let methods := methodTokens lc.Method
  if "file" ∈ methods ∧ lc.Filename = "" then
    .error .fileFilenameMismatch
  else
    let lc1 := { lc with
      MethodFile := "file" ∈ methods
      MethodStdout := "stdout" ∈ methods
      MethodStderr := "stderr" ∈ methods }
    match alookup (lowerStr lc.LevelString) LogLevelNames with
    | none => .error (.unknownLevel lc.LevelString)
    | some level =>
      let lc2 := { lc1 with Level := level }
      match parseTypes lc2.Types lc2.ExcludedTypes (goSplitSpace lc2.TypeString) with
      | .error e => .error e
      | .ok (tys, extys) =>
        if tys.length < 1 then .error .noLogTypes
        else .ok { lc2 with Types := tys, ExcludedTypes := extys }

/-- The chain of a class name and its ancestors along `Extends`, read off the
raw record set, with fuel bounding the walk: `some l` means the walk reaches
a record with no `Extends` within `fuel` steps and `l` lists the names
visited, the class itself first. -/
def ancestorChain (raw : List (String × OperClassConfig)) :
    Nat → String → Option (List String)
  | 0, _ => none
  | fuel + 1, n =>
    (alookup n raw).bind (fun info =>
      if info.Extends.length > 0 then
        (ancestorChain raw fuel info.Extends).map (fun l => n :: l)
      else
        some [n])

/-- The record's own capability list as a set, or empty for a missing name. -/
def ownCaps (raw : List (String × OperClassConfig)) (n : String) : Finset String :=
  ((alookup n raw).map (fun info => info.Capabilities.toFinset)).getD ∅

/-- The union of a class's own capabilities and those of all its ancestors
along the `Extends` chain — the declarative value the resolver must reach. -/
def chainCaps (raw : List (String × OperClassConfig)) (n : String) : Finset String :=
  ((ancestorChain raw raw.length n).map
    (fun l => l.foldr (fun m s => ownCaps raw m ∪ s) ∅)).getD ∅

/-- A class-record set with pairwise-distinct names, no `extends` cycle and
no dangling `extends` reference: every name's ancestor chain closes within
`raw.length` steps (an acyclic chain visits distinct names, so this bound is
exact). -/
def ClassesWF (raw : List (String × OperClassConfig)) : Prop :=
  (raw.map Prod.fst).Nodup ∧ ∀ p ∈ raw, (ancestorChain raw raw.length p.1).isSome

/-- No record can make the whois-line defaulting read `Title[0]` out of
bounds: every record carries an explicit whois line or a non-empty title. -/
def TitlesOk (raw : List (String × OperClassConfig)) : Prop :=
  ∀ p ∈ raw, p.2.WhoisLine ≠ "" ∨ p.2.Title ≠ ""

/-- The class record the resolver must associate to a name, as a function of
the raw set alone (hence independent of any iteration order). -/
def canonicalClass (raw : List (String × OperClassConfig)) (n : String) : Option OperClass :=
  (alookup n raw).bind (fun info =>
    (specWhois info).map (fun w =>
      { Title := info.Title, WhoisLine := w, Capabilities := chainCaps raw n }))

instance {raw : List (String × OperClassConfig)} : Decidable (ClassesWF raw) := by
  unfold ClassesWF; infer_instance

instance {raw : List (String × OperClassConfig)} : Decidable (TitlesOk raw) := by
  unfold TitlesOk; infer_instance

/-- No record's `Extends` dangles: it is empty or names a raw record. -/
def NoDangling (raw : List (String × OperClassConfig)) : Prop :=
  ∀ p ∈ raw, p.2.Extends.length = 0 ∨ (alookup p.2.Extends raw).isSome

instance {raw : List (String × OperClassConfig)} : Decidable (NoDangling raw) := by
  unfold NoDangling; infer_instance

/-- The length of a name's ancestor chain (`0` when there is none). -/
def chainLen (raw : List (String × OperClassConfig)) (n : String) : Nat :=
  ((ancestorChain raw raw.length n).map List.length).getD 0

/-- Every class already assembled agrees with the order-independent
`canonicalClass` value — the loop invariant of the resolver. -/
def GoodOcs (raw : List (String × OperClassConfig)) (ocs : List (String × OperClass)) : Prop :=
  ∀ n oc, alookup n ocs = some oc → canonicalClass raw n = some oc

/-- Whether an `Except` value is an error. -/
def isErr {ε α : Type} : Except ε α → Bool
  | .error _ => true
  | .ok _ => false

/-! ## Basic lemmas about `alookup` and keys -/

theorem alookup_nil {α : Type} (k : String) : @alookup α k [] = none := rfl

theorem alookup_cons {α : Type} (k a : String) (b : α) (t : List (String × α)) :
    alookup k ((a, b) :: t) = if k = a then some b else alookup k t := rfl

theorem alookup_eq_none {α : Type} (k : String) (l : List (String × α)) :
    alookup k l = none ↔ k ∉ keysOf l := by
  induction l with
  | nil => simp [alookup, keysOf]
  | cons p t ih =>
    obtain ⟨a, b⟩ := p
    by_cases h : k = a <;> simp [alookup, keysOf, h] at ih ⊢
    exact ih

theorem alookup_isSome {α : Type} (k : String) (l : List (String × α)) :
    (alookup k l).isSome ↔ k ∈ keysOf l := by
  rw [Option.isSome_iff_ne_none]
  constructor
  · intro h
    by_contra hk
    exact h ((alookup_eq_none k l).2 hk)
  · intro h hn
    exact ((alookup_eq_none k l).1 hn) h

theorem mem_of_alookup {α : Type} {k : String} {v : α} {l : List (String × α)}
    (h : alookup k l = some v) : (k, v) ∈ l := by
  induction l with
  | nil => simp [alookup] at h
  | cons p t ih =>
    obtain ⟨a, b⟩ := p
    by_cases hk : k = a
    · subst hk
      simp [alookup] at h
      subst h
      exact List.mem_cons_self _ _
    · simp [alookup, hk] at h
      exact List.mem_cons_of_mem _ (ih h)

theorem mem_keys_of_mem {α : Type} {k : String} {v : α} {l : List (String × α)}
    (h : (k, v) ∈ l) : k ∈ keysOf l :=
  List.mem_map_of_mem Prod.fst h

theorem alookup_of_mem {α : Type} {k : String} {v : α} {l : List (String × α)}
    (hnd : (keysOf l).Nodup) (h : (k, v) ∈ l) : alookup k l = some v := by
  induction l with
  | nil => simp at h
  | cons p t ih =>
    obtain ⟨a, b⟩ := p
    simp only [keysOf, List.map_cons, List.nodup_cons] at hnd
    rcases List.mem_cons.1 h with h1 | h1
    · rw [Prod.mk.injEq] at h1
      obtain ⟨rfl, rfl⟩ := h1
      simp [alookup_cons]
    · have hka : k ≠ a := by
        intro hk
        subst hk
        exact hnd.1 (mem_keys_of_mem h1)
      rw [alookup_cons, if_neg hka]
      exact ih hnd.2 h1

theorem value_unique {α : Type} {k : String} {v v' : α} {l : List (String × α)}
    (hnd : (keysOf l).Nodup) (h : (k, v) ∈ l) (h' : (k, v') ∈ l) : v = v' := by
  have := alookup_of_mem hnd h
  have := alookup_of_mem hnd h'
  simp_all

theorem keys_nodup_of_perm {α : Type} {l l' : List (String × α)} (hp : l.Perm l')
    (hnd : (keysOf l).Nodup) : (keysOf l').Nodup :=
  ((hp.map Prod.fst).nodup_iff).1 hnd

theorem alookup_perm {α : Type} {l l' : List (String × α)} (hp : l.Perm l')
    (hnd : (keysOf l).Nodup) (k : String) : alookup k l = alookup k l' := by
  cases h : alookup k l with
  | some v =>
    exact (alookup_of_mem (keys_nodup_of_perm hp hnd) (hp.mem_iff.1 (mem_of_alookup h))).symm
  | none =>
    have hk : k ∉ keysOf l := (alookup_eq_none k l).1 h
    have hk' : k ∉ keysOf l' := fun hc => hk (((hp.map Prod.fst).mem_iff).2 hc)
    exact ((alookup_eq_none k l').2 hk').symm

theorem keys_length_le {α β : Type} {l : List (String × α)} {l' : List (String × β)}
    (hnd : (keysOf l).Nodup) (hsub : keysOf l ⊆ keysOf l') : l.length ≤ l'.length := by
  have h1 : (keysOf l).length ≤ (keysOf l').length :=
    (List.subperm_of_subset hnd hsub).length_le
  simpa [keysOf] using h1

/-! ## Basic lemmas about strings and the whois default -/

theorem string_eq_empty_iff_data (s : String) : s = "" ↔ s.data = [] := by
  constructor
  · intro h
    rw [h]
  · intro h
    obtain ⟨data⟩ := s
    simp only at h
    rw [h]

theorem string_ne_empty_iff (s : String) : s ≠ "" ↔ 0 < s.length := by
  rw [← String.length_data, List.length_pos]
  constructor
  · intro h hc
    exact h ((string_eq_empty_iff_data s).2 hc)
  · intro h hc
    exact h ((string_eq_empty_iff_data s).1 hc)

theorem specWhois_isSome {info : OperClassConfig}
    (h : info.WhoisLine ≠ "" ∨ info.Title ≠ "") : (specWhois info).isSome := by
  rcases h with h | h
  · rw [specWhois, if_pos ((string_ne_empty_iff _).1 h)]
    rfl
  · rw [specWhois]
    split
    · rfl
    · rw [whoisDefault]
      have hd : info.Title.data ≠ [] := fun hc => h ((string_eq_empty_iff_data _).2 hc)
      cases hdata : info.Title.data with
      | nil => exact absurd hdata hd
      | cons c t => rfl

theorem specWhois_none_of_bad {info : OperClassConfig}
    (hw : info.WhoisLine = "") (ht : info.Title = "") : specWhois info = none := by
  rw [specWhois, if_neg, ht]
  · rfl
  · rw [hw]
    simp [String.length]

/-! ## Lemmas about the ancestor chain and the declarative capability set -/

theorem ancestorChain_mono {raw : List (String × OperClassConfig)} :
    ∀ {f f' : Nat} {n : String} {l : List String}, f ≤ f' →
      ancestorChain raw f n = some l → ancestorChain raw f' n = some l := by
  intro f
  induction f with
  | zero => intro f' n l _ h; simp [ancestorChain] at h
  | succ f ih =>
    intro f' n l hle h
    obtain ⟨f'', rfl⟩ : ∃ f'', f' = f'' + 1 :=
      ⟨f' - 1, by omega⟩
    rw [ancestorChain] at h ⊢
    cases hlk : alookup n raw with
    | none => rw [hlk] at h; simp at h
    | some info =>
      rw [hlk] at h
      simp only [Option.some_bind] at h ⊢
      by_cases hx : info.Extends.length > 0
      · rw [if_pos hx] at h ⊢
        cases hc : ancestorChain raw f info.Extends with
        | none => rw [hc] at h; simp at h
        | some l' =>
          rw [hc] at h
          rw [ih (by omega) hc]
          exact h
      · rw [if_neg hx] at h ⊢
        exact h

theorem ancestorChain_cons {raw : List (String × OperClassConfig)} {f : Nat} {n : String}
    {l : List String} (h : ancestorChain raw f n = some l) :
    ∃ info t, alookup n raw = some info ∧ l = n :: t := by
  cases f with
  | zero => simp [ancestorChain] at h
  | succ f =>
    rw [ancestorChain] at h
    cases hlk : alookup n raw with
    | none => rw [hlk] at h; simp at h
    | some info =>
      rw [hlk] at h
      simp only [Option.some_bind] at h
      by_cases hx : info.Extends.length > 0
      · rw [if_pos hx] at h
        cases hc : ancestorChain raw f info.Extends with
        | none => rw [hc] at h; simp at h
        | some l' =>
          rw [hc] at h
          simp only [Option.map_some', Option.some.injEq] at h
          exact ⟨info, l', rfl, h.symm⟩
      · rw [if_neg hx] at h
        exact ⟨info, [], rfl, by simp at h; exact h.symm⟩

theorem ancestorChain_step {raw : List (String × OperClassConfig)} {n : String}
    {info : OperClassConfig} {l : List String}
    (hlk : alookup n raw = some info) (hx : info.Extends.length > 0)
    (h : ancestorChain raw raw.length n = some l) :
    ∃ t, l = n :: t ∧ ancestorChain raw raw.length info.Extends = some t := by
  cases hf : raw.length with
  | zero => rw [hf] at h; simp [ancestorChain] at h
  | succ f =>
    rw [hf, ancestorChain, hlk] at h
    simp only [Option.some_bind] at h
    rw [if_pos hx] at h
    cases hc : ancestorChain raw f info.Extends with
    | none => rw [hc] at h; simp at h
    | some l' =>
      rw [hc] at h
      simp only [Option.map_some', Option.some.injEq] at h
      exact ⟨l', h.symm, ancestorChain_mono (by omega) hc⟩

theorem ancestorChain_parent_isSome {raw : List (String × OperClassConfig)} {n : String}
    {info : OperClassConfig}
    (hlk : alookup n raw = some info) (hx : info.Extends.length > 0)
    (h : (ancestorChain raw raw.length n).isSome) :
    (alookup info.Extends raw).isSome ∧ (ancestorChain raw raw.length info.Extends).isSome := by
  rw [Option.isSome_iff_exists] at h
  obtain ⟨l, hl⟩ := h
  obtain ⟨t, rfl, ht⟩ := ancestorChain_step hlk hx hl
  obtain ⟨info', t', hlk', _⟩ := ancestorChain_cons ht
  exact ⟨by rw [hlk']; rfl, by rw [ht]; rfl⟩

theorem chainCaps_eq_own {raw : List (String × OperClassConfig)} {n : String}
    {info : OperClassConfig}
    (hlk : alookup n raw = some info) (hx : ¬info.Extends.length > 0) :
    chainCaps raw n = info.Capabilities.toFinset := by
  have hn : n ∈ keysOf raw := (alookup_isSome n raw).1 (by rw [hlk]; rfl)
  have hlen : 0 < raw.length := by
    cases raw with
    | nil => simp [keysOf] at hn
    | cons p t => simp
  obtain ⟨f, hf⟩ : ∃ f, raw.length = f + 1 := ⟨raw.length - 1, by omega⟩
  rw [chainCaps, hf, ancestorChain, hlk]
  simp only [Option.some_bind, if_neg hx]
  simp [ownCaps, hlk]

theorem chainCaps_eq_step {raw : List (String × OperClassConfig)} {n : String}
    {info : OperClassConfig}
    (hlk : alookup n raw = some info) (hx : info.Extends.length > 0)
    (hc : (ancestorChain raw raw.length n).isSome) :
    chainCaps raw n = info.Capabilities.toFinset ∪ chainCaps raw info.Extends := by
  rw [Option.isSome_iff_exists] at hc
  obtain ⟨l, hl⟩ := hc
  obtain ⟨t, rfl, ht⟩ := ancestorChain_step hlk hx hl
  rw [chainCaps, hl, chainCaps, ht]
  simp [ownCaps, hlk]

theorem chainLen_parent_lt {raw : List (String × OperClassConfig)} {n : String}
    {info : OperClassConfig}
    (hlk : alookup n raw = some info) (hx : info.Extends.length > 0)
    (hc : (ancestorChain raw raw.length n).isSome) :
    chainLen raw info.Extends < chainLen raw n := by
  rw [Option.isSome_iff_exists] at hc
  obtain ⟨l, hl⟩ := hc
  obtain ⟨t, rfl, ht⟩ := ancestorChain_step hlk hx hl
  rw [chainLen, chainLen, hl, ht]
  simp only [Option.map_some', Option.getD_some, List.length_cons]
  omega

theorem chainLen_pos {raw : List (String × OperClassConfig)} {n : String}
    (hc : (ancestorChain raw raw.length n).isSome) : 0 < chainLen raw n := by
  rw [Option.isSome_iff_exists] at hc
  obtain ⟨l, hl⟩ := hc
  obtain ⟨info, t, _, rfl⟩ := ancestorChain_cons hl
  rw [chainLen, hl]
  simp only [Option.map_some', Option.getD_some, List.length_cons]
  omega

/-! ## Lemmas about capability assembly -/

theorem foldl_insert_eq_union (l : List String) :
    ∀ base : Finset String, List.foldl (fun s c => insert c s) base l = base ∪ l.toFinset := by
  induction l with
  | nil => intro base; simp
  | cons c t ih =>
    intro base
    rw [List.foldl_cons, ih (insert c base), List.toFinset_cons]
    ext x
    simp only [Finset.mem_union, Finset.mem_insert]
    tauto

theorem resolveClass_eq_ok {ocs : List (String × OperClass)} {info : OperClassConfig}
    {oc : OperClass} (h : resolveClass ocs info = .ok oc) :
    ∃ w, specWhois info = some w ∧
      oc = { Title := info.Title, WhoisLine := w, Capabilities := resolveCaps ocs info } := by
  rw [resolveClass] at h
  cases hw : specWhois info with
  | none => rw [hw] at h; simp at h
  | some w =>
    rw [hw] at h
    simp only [Except.ok.injEq] at h
    exact ⟨w, rfl, h.symm⟩

theorem resolveClass_eq_error {ocs : List (String × OperClass)} {info : OperClassConfig}
    {e : ConfigError} (h : resolveClass ocs info = .error e) :
    e = .emptyTitleIndex ∧ specWhois info = none := by
  rw [resolveClass] at h
  cases hw : specWhois info with
  | none => rw [hw] at h; simp only [Except.error.injEq] at h; exact ⟨h.symm, rfl⟩
  | some w => rw [hw] at h; simp at h

theorem resolveClass_ok_of_isSome {ocs : List (String × OperClass)} {info : OperClassConfig}
    (h : (specWhois info).isSome) :
    ∃ oc, resolveClass ocs info = .ok oc := by
  rw [Option.isSome_iff_exists] at h
  obtain ⟨w, hw⟩ := h
  exact ⟨_, by rw [resolveClass, hw]⟩

/-! ## Structural lemmas about a single resolver pass -/

theorem pass_flag_true {raw : List (String × OperClassConfig)} :
    ∀ {entries : List (String × OperClassConfig)} {ocs ocs' : List (String × OperClass)}
      {f' : Bool},
      operClassesPass raw entries ocs true = .ok (ocs', f') → f' = true := by
  intro entries
  induction entries with
  | nil =>
    intro ocs ocs' f' h
    simp only [operClassesPass, Except.ok.injEq, Prod.mk.injEq] at h
    exact h.2.symm
  | cons p rest ih =>
    intro ocs ocs' f' h
    obtain ⟨name, info⟩ := p
    rw [operClassesPass] at h
    split at h
    · exact ih h
    · split at h
      · split at h
        · exact ih h
        · simp at h
      · split at h
        · simp at h
        · exact ih h

theorem pass_lookup_some {raw : List (String × OperClassConfig)} :
    ∀ {entries : List (String × OperClassConfig)} {ocs ocs' : List (String × OperClass)}
      {f f' : Bool} {k : String} {v : OperClass},
      operClassesPass raw entries ocs f = .ok (ocs', f') → alookup k ocs = some v →
        alookup k ocs' = some v := by
  intro entries
  induction entries with
  | nil =>
    intro ocs ocs' f f' k v h hk
    simp only [operClassesPass, Except.ok.injEq, Prod.mk.injEq] at h
    rw [← h.1]
    exact hk
  | cons p rest ih =>
    intro ocs ocs' f f' k v h hk
    obtain ⟨name, info⟩ := p
    rw [operClassesPass] at h
    split at h
    · exact ih h hk
    · split at h
      · split at h
        · exact ih h hk
        · simp at h
      · split at h
        · simp at h
        · rename_i hc1 hc2 hx oc heq
          refine ih h ?_
          rw [alookup_cons]
          have hne : k ≠ name := by
            intro hknv
            subst hknv
            rw [hk] at hc1
            simp at hc1
          rw [if_neg hne]
          exact hk

theorem pass_append {raw : List (String × OperClassConfig)} :
    ∀ {entries : List (String × OperClassConfig)} {ocs ocs' : List (String × OperClass)}
      {f f' : Bool},
      operClassesPass raw entries ocs f = .ok (ocs', f') →
        ∃ add, ocs' = add ++ ocs ∧ keysOf add ⊆ keysOf entries := by
  intro entries
  induction entries with
  | nil =>
    intro ocs ocs' f f' h
    simp only [operClassesPass, Except.ok.injEq, Prod.mk.injEq] at h
    exact ⟨[], by simp [h.1.symm], by simp [keysOf]⟩
  | cons p rest ih =>
    intro ocs ocs' f f' h
    obtain ⟨name, info⟩ := p
    rw [operClassesPass] at h
    split at h
    · obtain ⟨add, h1, h2⟩ := ih h
      exact ⟨add, h1, fun x hx => List.mem_cons_of_mem _ (h2 hx)⟩
    · split at h
      · split at h
        · obtain ⟨add, h1, h2⟩ := ih h
          exact ⟨add, h1, fun x hx => List.mem_cons_of_mem _ (h2 hx)⟩
        · simp at h
      · split at h
        · simp at h
        · rename_i hc1 hc2 hx oc heq
          obtain ⟨add, h1, h2⟩ := ih h
          refine ⟨add ++ [(name, oc)], by simp [h1], fun x hx => ?_⟩
          simp only [keysOf, List.map_append, List.mem_append] at hx
          rcases hx with hx | hx
          · exact List.mem_cons_of_mem _ (h2 hx)
          · simp [keysOf] at hx
            simp [keysOf, hx]

theorem pass_keys_nodup {raw : List (String × OperClassConfig)} :
    ∀ {entries : List (String × OperClassConfig)} {ocs ocs' : List (String × OperClass)}
      {f f' : Bool},
      operClassesPass raw entries ocs f = .ok (ocs', f') → (keysOf ocs).Nodup →
        (keysOf ocs').Nodup := by
  intro entries
  induction entries with
  | nil =>
    intro ocs ocs' f f' h hnd
    simp only [operClassesPass, Except.ok.injEq, Prod.mk.injEq] at h
    rw [← h.1]
    exact hnd
  | cons p rest ih =>
    intro ocs ocs' f f' h hnd
    obtain ⟨name, info⟩ := p
    rw [operClassesPass] at h
    split at h
    · exact ih h hnd
    · split at h
      · split at h
        · exact ih h hnd
        · simp at h
      · split at h
        · simp at h
        · rename_i hc1 hc2 hx oc heq
          refine ih h ?_
          simp only [keysOf, List.map_cons, List.nodup_cons]
          exact ⟨fun hc => hc1 ((alookup_isSome name ocs).2 hc), hnd⟩

theorem pass_keys_sub {raw : List (String × OperClassConfig)} :
    ∀ {entries : List (String × OperClassConfig)} {ocs ocs' : List (String × OperClass)}
      {f f' : Bool},
      operClassesPass raw entries ocs f = .ok (ocs', f') →
        (∀ p ∈ entries, p ∈ raw) → keysOf ocs ⊆ keysOf raw → keysOf ocs' ⊆ keysOf raw := by
  intro entries
  induction entries with
  | nil =>
    intro ocs ocs' f f' h _ hsub
    simp only [operClassesPass, Except.ok.injEq, Prod.mk.injEq] at h
    rw [← h.1]
    exact hsub
  | cons p rest ih =>
    intro ocs ocs' f f' h hent hsub
    obtain ⟨name, info⟩ := p
    have hent' : ∀ q ∈ rest, q ∈ raw := fun q hq => hent q (List.mem_cons_of_mem _ hq)
    rw [operClassesPass] at h
    split at h
    · exact ih h hent' hsub
    · split at h
      · split at h
        · exact ih h hent' hsub
        · simp at h
      · split at h
        · simp at h
        · rename_i hc1 hc2 hx oc heq
          refine ih h hent' ?_
          intro x hxm
          simp only [keysOf, List.map_cons, List.mem_cons] at hxm
          rcases hxm with rfl | hxm
          · exact mem_keys_of_mem (hent (x, info) (List.mem_cons_self _ _))
          · exact hsub hxm

theorem pass_all_some_of_false {raw : List (String × OperClassConfig)} :
    ∀ {entries : List (String × OperClassConfig)} {ocs ocs' : List (String × OperClass)}
      {f : Bool},
      operClassesPass raw entries ocs f = .ok (ocs', false) →
        ∀ p ∈ entries, (alookup p.1 ocs').isSome := by
  intro entries
  induction entries with
  | nil =>
    intro ocs ocs' f h p hp
    simp at hp
  | cons q rest ih =>
    intro ocs ocs' f h p hp
    obtain ⟨name, info⟩ := q
    rw [operClassesPass] at h
    split at h
    · rename_i hc1
      rcases List.mem_cons.1 hp with rfl | hp'
      · show (alookup name ocs').isSome
        rw [Option.isSome_iff_exists] at hc1
        obtain ⟨v, hv⟩ := hc1
        rw [pass_lookup_some h hv]
        rfl
      · exact ih h p hp'
    · split at h
      · split at h
        · exact absurd (pass_flag_true h) (by simp)
        · simp at h
      · split at h
        · simp at h
        · rename_i hc1 hc2 hx oc heq
          rcases List.mem_cons.1 hp with rfl | hp'
          · show (alookup name ocs').isSome
            have hlkc : alookup name ((name, oc) :: ocs) = some oc := by
              rw [alookup_cons, if_pos rfl]
            rw [pass_lookup_some h hlkc]
            rfl
          · exact ih h p hp'

theorem pass_error_shape {raw : List (String × OperClassConfig)} :
    ∀ {entries : List (String × OperClassConfig)} {ocs : List (String × OperClass)}
      {f : Bool} {e : ConfigError},
      operClassesPass raw entries ocs f = .error e →
        e = .emptyTitleIndex ∨ ∃ a b, e = .missingBase a b := by
  intro entries
  induction entries with
  | nil =>
    intro ocs f e h
    simp [operClassesPass] at h
  | cons q rest ih =>
    intro ocs f e h
    obtain ⟨name, info⟩ := q
    rw [operClassesPass] at h
    split at h
    · exact ih h
    · split at h
      · split at h
        · exact ih h
        · simp only [Except.error.injEq] at h
          exact Or.inr ⟨name, info.Extends, h.symm⟩
      · split at h
        · rename_i hc1 hc2 e' heq
          simp only [Except.error.injEq] at h
          subst h
          exact Or.inl (resolveClass_eq_error heq).1
        · exact ih h

theorem pass_flag_unresolved {raw : List (String × OperClassConfig)} :
    ∀ {entries : List (String × OperClassConfig)} {ocs ocs' : List (String × OperClass)},
      operClassesPass raw entries ocs false = .ok (ocs', true) →
        ∃ p ∈ entries, alookup p.1 ocs = none := by
  intro entries
  induction entries with
  | nil =>
    intro ocs ocs' h
    simp [operClassesPass] at h
  | cons q rest ih =>
    intro ocs ocs' h
    obtain ⟨name, info⟩ := q
    rw [operClassesPass] at h
    split at h
    · obtain ⟨p, hp, hnone⟩ := ih h
      exact ⟨p, List.mem_cons_of_mem _ hp, hnone⟩
    · split at h
      · split at h
        · rename_i hc1 hc2 hc3
          refine ⟨(name, info), List.mem_cons_self _ _, ?_⟩
          simp only [Option.isSome_iff_ne_none] at hc1
          simpa using hc1
        · simp at h
      · split at h
        · simp at h
        · rename_i hc1 hc2 hx oc heq
          obtain ⟨p, hp, hnone⟩ := ih h
          refine ⟨p, List.mem_cons_of_mem _ hp, ?_⟩
          rw [alookup_cons] at hnone
          by_cases hpn : p.1 = name
          · rw [if_pos hpn] at hnone
            simp at hnone
          · rw [if_neg hpn] at hnone
            exact hnone

theorem pass_length_lt_of_new {raw : List (String × OperClassConfig)}
    {entries : List (String × OperClassConfig)} {ocs ocs' : List (String × OperClass)}
    {f f' : Bool} {k : String}
    (h : operClassesPass raw entries ocs f = .ok (ocs', f'))
    (hnone : alookup k ocs = none) (hsome : (alookup k ocs').isSome) :
    ocs.length < ocs'.length := by
  obtain ⟨add, rfl, _⟩ := pass_append h
  cases add with
  | nil =>
    simp only [List.nil_append] at hsome
    rw [hnone] at hsome
    simp at hsome
  | cons a t => simp [List.length_append]; omega

/-! ## The resolver's loop invariant -/

theorem canonicalClass_intro {raw : List (String × OperClassConfig)} {n : String}
    {info : OperClassConfig} {w : String}
    (hlk : alookup n raw = some info) (hw : specWhois info = some w) :
    canonicalClass raw n =
      some { Title := info.Title, WhoisLine := w, Capabilities := chainCaps raw n } := by
  rw [canonicalClass, hlk, Option.some_bind, hw, Option.map_some']

theorem canonicalClass_elim {raw : List (String × OperClassConfig)} {n : String}
    {oc : OperClass} (h : canonicalClass raw n = some oc) :
    ∃ info, alookup n raw = some info ∧ specWhois info = some oc.WhoisLine ∧
      oc.Title = info.Title ∧ oc.Capabilities = chainCaps raw n := by
  rw [canonicalClass] at h
  cases hlk : alookup n raw with
  | none => rw [hlk] at h; simp at h
  | some info =>
    rw [hlk, Option.some_bind] at h
    cases hw : specWhois info with
    | none => rw [hw] at h; simp at h
    | some w =>
      rw [hw, Option.map_some', Option.some.injEq] at h
      rw [← h]
      exact ⟨info, rfl, hw, rfl, rfl⟩

theorem wf_noDangling {raw : List (String × OperClassConfig)}
    (hwf : ClassesWF raw) : NoDangling raw := by
  intro p hp
  by_cases hx : p.2.Extends.length > 0
  · have hlk : alookup p.1 raw = some p.2 := alookup_of_mem hwf.1 hp
    exact Or.inr (ancestorChain_parent_isSome hlk hx (hwf.2 p hp)).1
  · exact Or.inl (by omega)

theorem resolveCaps_eq_chainCaps {raw : List (String × OperClassConfig)}
    {ocs : List (String × OperClass)} {n : String} {info : OperClassConfig}
    (hgood : GoodOcs raw ocs)
    (hlk : alookup n raw = some info)
    (himp : info.Extends.length > 0 → (alookup info.Extends ocs).isSome)
    (hchain : (ancestorChain raw raw.length n).isSome) :
    resolveCaps ocs info = chainCaps raw n := by
  by_cases hx : info.Extends.length > 0
  · obtain ⟨e, he⟩ := Option.isSome_iff_exists.1 (himp hx)
    obtain ⟨info', hlk', hw', hti', hcap'⟩ := canonicalClass_elim (hgood info.Extends e he)
    rw [resolveCaps]
    simp only [if_pos hx, he, Option.map_some', Option.getD_some]
    rw [foldl_insert_eq_union, hcap', chainCaps_eq_step hlk hx hchain, Finset.union_comm]
  · rw [resolveCaps]
    simp only [if_neg hx]
    rw [foldl_insert_eq_union, Finset.empty_union, chainCaps_eq_own hlk hx]

theorem pass_good {raw : List (String × OperClassConfig)} (hwf : ClassesWF raw) :
    ∀ {entries : List (String × OperClassConfig)} {ocs ocs' : List (String × OperClass)}
      {f f' : Bool},
      (∀ p ∈ entries, p ∈ raw) →
      operClassesPass raw entries ocs f = .ok (ocs', f') →
      GoodOcs raw ocs → GoodOcs raw ocs' := by
  intro entries
  induction entries with
  | nil =>
    intro ocs ocs' f f' _ h hg
    simp only [operClassesPass, Except.ok.injEq, Prod.mk.injEq] at h
    rw [← h.1]
    exact hg
  | cons p rest ih =>
    intro ocs ocs' f f' hent h hg
    obtain ⟨name, info⟩ := p
    have hent' : ∀ q ∈ rest, q ∈ raw := fun q hq => hent q (List.mem_cons_of_mem _ hq)
    have hmem : (name, info) ∈ raw := hent _ (List.mem_cons_self _ _)
    rw [operClassesPass] at h
    split at h
    · exact ih hent' h hg
    · split at h
      · split at h
        · exact ih hent' h hg
        · simp at h
      · split at h
        · simp at h
        · rename_i hc1 hc2 hx oc heq
          refine ih hent' h ?_
          obtain ⟨w, hw, rfl⟩ := resolveClass_eq_ok heq
          have hlkraw : alookup name raw = some info := alookup_of_mem hwf.1 hmem
          have himp : info.Extends.length > 0 → (alookup info.Extends ocs).isSome := by
            intro hgt
            by_contra hns
            apply hc2
            simp only [Bool.and_eq_true, decide_eq_true_eq, Bool.not_eq_true']
            exact ⟨hgt, by simpa using hns⟩
          have hcaps := resolveCaps_eq_chainCaps hg hlkraw himp (hwf.2 _ hmem)
          intro n' oc' hlook
          rw [alookup_cons] at hlook
          by_cases hn : n' = name
          · subst hn
            rw [if_pos rfl] at hlook
            rw [← Option.some.inj hlook, hcaps]
            exact canonicalClass_intro hlkraw hw
          · rw [if_neg hn] at hlook
            exact hg n' oc' hlook

theorem pass_no_error {raw : List (String × OperClassConfig)}
    (hnd : NoDangling raw) (hto : TitlesOk raw) :
    ∀ {entries : List (String × OperClassConfig)} {ocs : List (String × OperClass)}
      {f : Bool},
      (∀ p ∈ entries, p ∈ raw) → ∃ r, operClassesPass raw entries ocs f = .ok r := by
  intro entries
  induction entries with
  | nil => intro ocs f _; exact ⟨_, rfl⟩
  | cons p rest ih =>
    intro ocs f hent
    obtain ⟨name, info⟩ := p
    have hent' : ∀ q ∈ rest, q ∈ raw := fun q hq => hent q (List.mem_cons_of_mem _ hq)
    have hmem : (name, info) ∈ raw := hent _ (List.mem_cons_self _ _)
    rw [operClassesPass]
    by_cases hc1 : (alookup name ocs).isSome = true
    · rw [if_pos hc1]
      exact ih hent'
    · rw [if_neg hc1]
      by_cases hc2 : (info.Extends.length > 0 && !(alookup info.Extends ocs).isSome) = true
      · rw [if_pos hc2]
        have hgt : info.Extends.length > 0 := by
          rcases Bool.and_eq_true .. ▸ hc2 with ⟨h1, _⟩
          simpa using h1
        have hsr : (alookup info.Extends raw).isSome := by
          rcases hnd (name, info) hmem with h0 | h0
          · have h0' : info.Extends.length = 0 := h0
            exact absurd hgt (by omega)
          · exact h0
        rw [if_pos hsr]
        exact ih hent'
      · rw [if_neg hc2]
        obtain ⟨oc, hoc⟩ :=
          @resolveClass_ok_of_isSome ocs _ (specWhois_isSome (hto (name, info) hmem))
        rw [hoc]
        exact ih hent'

/-! ## Progress: an entry whose base is available gets resolved in the pass -/

theorem alookup_isSome_cons {α : Type} {k a : String} {b : α} {l : List (String × α)}
    (h : (alookup k l).isSome) : (alookup k ((a, b) :: l)).isSome := by
  rw [alookup_cons]
  by_cases hk : k = a
  · rw [if_pos hk]; rfl
  · rw [if_neg hk]; exact h

theorem pass_resolves_entry {raw : List (String × OperClassConfig)} :
    ∀ {entries : List (String × OperClassConfig)} {ocs ocs' : List (String × OperClass)}
      {f f' : Bool} {n : String} {i : OperClassConfig},
      (keysOf entries).Nodup → (n, i) ∈ entries → alookup n ocs = none →
      (i.Extends.length = 0 ∨ (alookup i.Extends ocs).isSome) →
      operClassesPass raw entries ocs f = .ok (ocs', f') → (alookup n ocs').isSome := by
  intro entries
  induction entries with
  | nil =>
    intro ocs ocs' f f' n i _ hmem _ _ _
    simp at hmem
  | cons q rest ih =>
    intro ocs ocs' f f' n i hnd hmem hnone hdisj h
    obtain ⟨name, info⟩ := q
    simp only [keysOf, List.map_cons, List.nodup_cons] at hnd
    rw [operClassesPass] at h
    rcases List.mem_cons.1 hmem with heq | hmem'
    · -- our entry is at the head of the pass
      rw [Prod.mk.injEq] at heq
      obtain ⟨rfl, rfl⟩ := heq
      split at h
      · rename_i hc1
        rw [hnone] at hc1
        simp at hc1
      · split at h
        · rename_i hc1 hc2
          exfalso
          rw [Bool.and_eq_true, decide_eq_true_eq, Bool.not_eq_true'] at hc2
          rcases hdisj with h0 | h0
          · omega
          · rw [hc2.2] at h0
            simp at h0
        · split at h
          · simp at h
          · rename_i hc1 hc2 hx oc heq2
            have hlkc : alookup n ((n, oc) :: ocs) = some oc := by
              rw [alookup_cons, if_pos rfl]
            rw [pass_lookup_some h hlkc]
            rfl
    · -- our entry is further along; the head cannot shadow it
      have hnn : name ≠ n := by
        intro hc
        exact hnd.1 (hc ▸ mem_keys_of_mem hmem')
      split at h
      · exact ih hnd.2 hmem' hnone hdisj h
      · split at h
        · split at h
          · exact ih hnd.2 hmem' hnone hdisj h
          · simp at h
        · split at h
          · simp at h
          · rename_i hc1 hc2 hx oc heq2
            refine ih hnd.2 hmem' ?_ ?_ h
            · rw [alookup_cons, if_neg (fun hc => hnn hc.symm)]
              exact hnone
            · rcases hdisj with h0 | h0
              · exact Or.inl h0
              · exact Or.inr (alookup_isSome_cons h0)

theorem pass_growth_aux {raw : List (String × OperClassConfig)} (hwf : ClassesWF raw) :
    ∀ (k : Nat) {n : String} {i : OperClassConfig} {ocs ocs' : List (String × OperClass)}
      {f f' : Bool},
      (n, i) ∈ raw → chainLen raw n ≤ k → alookup n ocs = none →
      operClassesPass raw raw ocs f = .ok (ocs', f') → ocs.length < ocs'.length := by
  intro k
  induction k with
  | zero =>
    intro n i ocs ocs' f f' hmem hk _ _
    have hpos : 0 < chainLen raw n := chainLen_pos (hwf.2 (n, i) hmem)
    omega
  | succ k ih =>
    intro n i ocs ocs' f f' hmem hk hnone h
    by_cases hx : i.Extends.length > 0
    · cases hp : alookup i.Extends ocs with
      | some e =>
        have hres := pass_resolves_entry hwf.1 hmem hnone (Or.inr (by rw [hp]; rfl)) h
        exact pass_length_lt_of_new h hnone hres
      | none =>
        have hlk : alookup n raw = some i := alookup_of_mem hwf.1 hmem
        have hpar := ancestorChain_parent_isSome hlk hx (hwf.2 (n, i) hmem)
        obtain ⟨i', hi'⟩ := Option.isSome_iff_exists.1 hpar.1
        have hmem' : (i.Extends, i') ∈ raw := mem_of_alookup hi'
        have hlt := chainLen_parent_lt hlk hx (hwf.2 (n, i) hmem)
        exact ih hmem' (by omega) hp h
    · have hres := pass_resolves_entry hwf.1 hmem hnone (Or.inl (by omega)) h
      exact pass_length_lt_of_new h hnone hres

theorem pass_growth {raw : List (String × OperClassConfig)} (hwf : ClassesWF raw)
    {ocs ocs' : List (String × OperClass)} {f f' : Bool}
    (h : operClassesPass raw raw ocs f = .ok (ocs', f'))
    (hun : ∃ p ∈ raw, alookup p.1 ocs = none) : ocs.length < ocs'.length := by
  obtain ⟨p, hp, hnone⟩ := hun
  exact pass_growth_aux hwf (chainLen raw p.1) hp (Nat.le_refl _) hnone h

/-! ## Lemmas about the outer fixed-point loop -/

theorem loop_ok_good {raw : List (String × OperClassConfig)} (hwf : ClassesWF raw) :
    ∀ {fuel : Nat} {lenLast : Int} {ocs m : List (String × OperClass)},
      GoodOcs raw ocs → operClassesLoop raw fuel lenLast ocs = .ok m →
      GoodOcs raw m ∧ ∀ p ∈ raw, (alookup p.1 m).isSome := by
  intro fuel
  induction fuel with
  | zero =>
    intro lenLast ocs m _ h
    simp [operClassesLoop] at h
  | succ fuel ih =>
    intro lenLast ocs m hg h
    rw [operClassesLoop] at h
    split at h
    · simp at h
    · split at h
      · simp at h
      · rename_i hne r ocs' anyMissing heq
        split at h
        · exact ih (pass_good hwf (fun p hp => hp) heq hg) h
        · rename_i hflag
          simp only [Except.ok.injEq] at h
          subst h
          refine ⟨pass_good hwf (fun p hp => hp) heq hg, ?_⟩
          have hfl : anyMissing = false := by simpa using hflag
          subst hfl
          exact fun p hp => pass_all_some_of_false heq p hp

theorem loop_succeeds {raw : List (String × OperClassConfig)}
    (hwf : ClassesWF raw) (hto : TitlesOk raw) :
    ∀ (fuel : Nat) (lenLast : Int) (ocs : List (String × OperClass)),
      (keysOf ocs).Nodup → keysOf ocs ⊆ keysOf raw → lenLast < (ocs.length : Int) →
      raw.length + 2 ≤ fuel + ocs.length →
      ∃ m, operClassesLoop raw fuel lenLast ocs = .ok m := by
  intro fuel
  induction fuel with
  | zero =>
    intro lenLast ocs hnd hsub _ hfuel
    have hle : ocs.length ≤ raw.length := by
      have h1 := keys_length_le hnd hsub
      simpa [keysOf] using h1
    omega
  | succ fuel ih =>
    intro lenLast ocs hnd hsub hlt hfuel
    rw [operClassesLoop, if_neg (by omega)]
    obtain ⟨⟨ocs', flag⟩, hp⟩ :=
      @pass_no_error raw (wf_noDangling hwf) hto raw ocs false (fun p hp => hp)
    rw [hp]
    cases flag with
    | false => exact ⟨ocs', rfl⟩
    | true =>
      simp only [if_pos rfl]
      have hun : ∃ p ∈ raw, alookup p.1 ocs = none := pass_flag_unresolved hp
      have hgrow : ocs.length < ocs'.length := pass_growth hwf hp hun
      have hnd' := pass_keys_nodup hp hnd
      have hsub' := pass_keys_sub hp (fun p hp => hp) hsub
      have hle' : ocs'.length ≤ raw.length := by
        have h1 := keys_length_le hnd' hsub'
        simpa [keysOf] using h1
      exact ih (ocs.length : Int) ocs' hnd' hsub' (by exact_mod_cast hgrow) (by omega)

theorem loop_ne_fuelExhausted {raw : List (String × OperClassConfig)} :
    ∀ (fuel : Nat) (lenLast : Int) (ocs : List (String × OperClass)),
      (keysOf ocs).Nodup → keysOf ocs ⊆ keysOf raw →
      raw.length + 2 ≤ fuel + ocs.length →
      operClassesLoop raw fuel lenLast ocs ≠ .error .fuelExhausted := by
  intro fuel
  induction fuel with
  | zero =>
    intro lenLast ocs hnd hsub hfuel
    have hle : ocs.length ≤ raw.length := by
      have h1 := keys_length_le hnd hsub
      simpa [keysOf] using h1
    omega
  | succ fuel ih =>
    intro lenLast ocs hnd hsub hfuel
    rw [operClassesLoop]
    split
    · simp
    · cases hp : operClassesPass raw raw ocs false with
      | error e =>
        intro hc
        rcases pass_error_shape hp with h1 | ⟨a, b, h1⟩ <;> subst h1 <;> simp at hc
      | ok r =>
        obtain ⟨ocs', flag⟩ := r
        cases flag with
        | false => simp
        | true =>
          simp only [if_pos rfl]
          have hnd' := pass_keys_nodup hp hnd
          have hsub' := pass_keys_sub hp (fun p hp => hp) hsub
          have hle' : ocs'.length ≤ raw.length := by
            have h1 := keys_length_le hnd' hsub'
            simpa [keysOf] using h1
          by_cases hgr : ocs.length < ocs'.length
          · exact ih (ocs.length : Int) ocs' hnd' hsub' (by omega)
          · have hge : ocs.length ≤ ocs'.length := by
              obtain ⟨add, rfl, _⟩ := pass_append hp
              simp [List.length_append]
            have hlen : ocs'.length = ocs.length := by omega
            obtain ⟨fuel', rfl⟩ : ∃ fuel', fuel = fuel' + 1 := ⟨fuel - 1, by omega⟩
            rw [operClassesLoop]
            have hcond : ((ocs'.length : Nat) : Int) = ((ocs.length : Nat) : Int) := by
              exact_mod_cast hlen
            rw [if_pos hcond]
            simp

/-! ## A record with empty whois line and empty title can never be assembled -/

theorem pass_bad_key {raw : List (String × OperClassConfig)} (hnd : (keysOf raw).Nodup)
    {n : String} {i : OperClassConfig}
    (hmem : (n, i) ∈ raw) (hw : i.WhoisLine = "") (ht : i.Title = "") :
    ∀ {entries : List (String × OperClassConfig)} {ocs ocs' : List (String × OperClass)}
      {f f' : Bool},
      (∀ p ∈ entries, p ∈ raw) →
      operClassesPass raw entries ocs f = .ok (ocs', f') →
      alookup n ocs = none → alookup n ocs' = none := by
  intro entries
  induction entries with
  | nil =>
    intro ocs ocs' f f' _ h hnone
    simp only [operClassesPass, Except.ok.injEq, Prod.mk.injEq] at h
    rw [← h.1]
    exact hnone
  | cons q rest ih =>
    intro ocs ocs' f f' hent h hnone
    obtain ⟨name, info⟩ := q
    have hent' : ∀ p ∈ rest, p ∈ raw := fun p hp => hent p (List.mem_cons_of_mem _ hp)
    rw [operClassesPass] at h
    split at h
    · exact ih hent' h hnone
    · split at h
      · split at h
        · exact ih hent' h hnone
        · simp at h
      · split at h
        · simp at h
        · rename_i hc1 hc2 hx oc heq
          by_cases hname : name = n
          · exfalso
            subst hname
            have hieq : info = i :=
              value_unique hnd (hent _ (List.mem_cons_self _ _)) hmem
            obtain ⟨w, hw', _⟩ := resolveClass_eq_ok heq
            rw [hieq, specWhois_none_of_bad hw ht] at hw'
            simp at hw'
          · refine ih hent' h ?_
            rw [alookup_cons, if_neg (fun hc => hname hc.symm)]
            exact hnone

theorem loop_never_ok {raw : List (String × OperClassConfig)} (hnd : (keysOf raw).Nodup)
    {n : String} {i : OperClassConfig}
    (hmem : (n, i) ∈ raw) (hw : i.WhoisLine = "") (ht : i.Title = "") :
    ∀ (fuel : Nat) (lenLast : Int) (ocs : List (String × OperClass)),
      alookup n ocs = none →
      ∀ m, operClassesLoop raw fuel lenLast ocs ≠ .ok m := by
  intro fuel
  induction fuel with
  | zero =>
    intro lenLast ocs _ m
    simp [operClassesLoop]
  | succ fuel ih =>
    intro lenLast ocs hnone m
    rw [operClassesLoop]
    split
    · simp
    · cases hp : operClassesPass raw raw ocs false with
      | error e => simp
      | ok r =>
        obtain ⟨ocs', flag⟩ := r
        have hnone' : alookup n ocs' = none :=
          pass_bad_key hnd hmem hw ht (fun p hp => hp) hp hnone
        cases flag with
        | true =>
          simp only [if_pos rfl]
          exact ih (ocs.length : Int) ocs' hnone' m
        | false =>
          have hsome := pass_all_some_of_false hp (n, i) hmem
          rw [hnone'] at hsome
          simp at hsome

/-! ## A dangling extends reference makes the first pass fail -/

theorem pass_dangling {raw : List (String × OperClassConfig)} (hto : TitlesOk raw) :
    ∀ {entries : List (String × OperClassConfig)} {ocs : List (String × OperClass)}
      {f : Bool},
      (∀ p ∈ entries, p ∈ raw) → (keysOf entries).Nodup →
      (∃ p ∈ entries, p.2.Extends.length > 0 ∧ alookup p.2.Extends raw = none ∧
        alookup p.1 ocs = none) →
      keysOf ocs ⊆ keysOf raw →
      ∃ a b, operClassesPass raw entries ocs f = .error (.missingBase a b) ∧
        alookup b raw = none ∧ ∃ j, (a, j) ∈ entries ∧ j.Extends = b := by
  intro entries
  induction entries with
  | nil =>
    intro ocs f _ _ hex _
    simp at hex
  | cons q rest ih =>
    intro ocs f hent hnd hex hsub
    obtain ⟨name, info⟩ := q
    simp only [keysOf, List.map_cons, List.nodup_cons] at hnd
    have hent' : ∀ p ∈ rest, p ∈ raw := fun p hp => hent p (List.mem_cons_of_mem _ hp)
    obtain ⟨p, hpmem, hpx, hpdangling, hpnone⟩ := hex
    rw [operClassesPass]
    by_cases hc1 : (alookup name ocs).isSome = true
    · rw [if_pos hc1]
      have hprest : p ∈ rest := by
        rcases List.mem_cons.1 hpmem with rfl | hp'
        · rw [hpnone] at hc1; simp at hc1
        · exact hp'
      obtain ⟨a, b, h1, h2, j, hj, hjb⟩ :=
        ih hent' hnd.2 ⟨p, hprest, hpx, hpdangling, hpnone⟩ hsub
      exact ⟨a, b, h1, h2, j, List.mem_cons_of_mem _ hj, hjb⟩
    · rw [if_neg hc1]
      by_cases hc2 : (info.Extends.length > 0 && !(alookup info.Extends ocs).isSome) = true
      · rw [if_pos hc2]
        cases hdr : (alookup info.Extends raw).isSome with
        | false =>
          rw [if_neg (by simp)]
          refine ⟨name, info.Extends, rfl, ?_, info, List.mem_cons_self _ _, rfl⟩
          exact Option.not_isSome_iff_eq_none.mp (by rw [hdr]; simp)
        | true =>
          rw [if_pos rfl]
          have hprest : p ∈ rest := by
            rcases List.mem_cons.1 hpmem with rfl | hp'
            · rw [hpdangling] at hdr; simp at hdr
            · exact hp'
          obtain ⟨a, b, h1, h2, j, hj, hjb⟩ :=
            ih hent' hnd.2 ⟨p, hprest, hpx, hpdangling, hpnone⟩ hsub
          exact ⟨a, b, h1, h2, j, List.mem_cons_of_mem _ hj, hjb⟩
      · rw [if_neg hc2]
        have hmemr : (name, info) ∈ raw := hent _ (List.mem_cons_self _ _)
        obtain ⟨oc, hoc⟩ :=
          @resolveClass_ok_of_isSome ocs _ (specWhois_isSome (hto _ hmemr))
        rw [hoc]
        have hprest : p ∈ rest := by
          rcases List.mem_cons.1 hpmem with rfl | hp'
          · exfalso
            rw [Bool.and_eq_true, decide_eq_true_eq, Bool.not_eq_true'] at hc2
            push_neg at hc2
            have hpx' : info.Extends.length > 0 := hpx
            have hpd : alookup info.Extends raw = none := hpdangling
            have hps : (alookup info.Extends ocs).isSome = true := by
              have h0 := hc2 hpx'
              cases hb : (alookup info.Extends ocs).isSome
              · exact absurd hb h0
              · rfl
            have h3 : info.Extends ∈ keysOf raw := hsub ((alookup_isSome _ _).1 hps)
            have h4 := (alookup_isSome info.Extends raw).2 h3
            rw [hpd] at h4
            simp at h4
          · exact hp'
        have hpnone' : alookup p.1 ((name, oc) :: ocs) = none := by
          rw [alookup_cons, if_neg]
          · exact hpnone
          · intro hc
            exact hnd.1 (hc ▸ mem_keys_of_mem hprest)
        obtain ⟨a, b, h1, h2, j, hj, hjb⟩ :=
          ih hent' hnd.2 ⟨p, hprest, hpx, hpdangling, hpnone'⟩
            (fun x hx => by
              simp only [keysOf, List.map_cons, List.mem_cons] at hx
              rcases hx with rfl | hx
              · exact mem_keys_of_mem hmemr
              · exact hsub hx)
        exact ⟨a, b, h1, h2, j, List.mem_cons_of_mem _ hj, hjb⟩

theorem pass_dangling_err {raw : List (String × OperClassConfig)} :
    ∀ {entries : List (String × OperClassConfig)} {ocs : List (String × OperClass)}
      {f : Bool},
      (∀ p ∈ entries, p ∈ raw) → (keysOf entries).Nodup →
      (∃ p ∈ entries, p.2.Extends.length > 0 ∧ alookup p.2.Extends raw = none ∧
        alookup p.1 ocs = none) →
      keysOf ocs ⊆ keysOf raw →
      ∃ e, operClassesPass raw entries ocs f = .error e := by
  intro entries
  induction entries with
  | nil =>
    intro ocs f _ _ hex _
    simp at hex
  | cons q rest ih =>
    intro ocs f hent hnd hex hsub
    obtain ⟨name, info⟩ := q
    simp only [keysOf, List.map_cons, List.nodup_cons] at hnd
    have hent' : ∀ p ∈ rest, p ∈ raw := fun p hp => hent p (List.mem_cons_of_mem _ hp)
    obtain ⟨p, hpmem, hpx, hpdangling, hpnone⟩ := hex
    rw [operClassesPass]
    by_cases hc1 : (alookup name ocs).isSome = true
    · rw [if_pos hc1]
      have hprest : p ∈ rest := by
        rcases List.mem_cons.1 hpmem with rfl | hp'
        · rw [hpnone] at hc1; simp at hc1
        · exact hp'
      exact ih hent' hnd.2 ⟨p, hprest, hpx, hpdangling, hpnone⟩ hsub
    · rw [if_neg hc1]
      by_cases hc2 : (info.Extends.length > 0 && !(alookup info.Extends ocs).isSome) = true
      · rw [if_pos hc2]
        cases hdr : (alookup info.Extends raw).isSome with
        | false =>
          rw [if_neg (by simp)]
          exact ⟨_, rfl⟩
        | true =>
          rw [if_pos rfl]
          have hprest : p ∈ rest := by
            rcases List.mem_cons.1 hpmem with rfl | hp'
            · rw [hpdangling] at hdr; simp at hdr
            · exact hp'
          exact ih hent' hnd.2 ⟨p, hprest, hpx, hpdangling, hpnone⟩ hsub
      · rw [if_neg hc2]
        cases hoc : resolveClass ocs info with
        | error e => exact ⟨e, rfl⟩
        | ok oc =>
          have hprest : p ∈ rest := by
            rcases List.mem_cons.1 hpmem with rfl | hp'
            · exfalso
              rw [Bool.and_eq_true, decide_eq_true_eq, Bool.not_eq_true'] at hc2
              push_neg at hc2
              have hpx' : info.Extends.length > 0 := hpx
              have hpd : alookup info.Extends raw = none := hpdangling
              have hps : (alookup info.Extends ocs).isSome = true := by
                have h0 := hc2 hpx'
                cases hb : (alookup info.Extends ocs).isSome
                · exact absurd hb h0
                · rfl
              have h3 : info.Extends ∈ keysOf raw := hsub ((alookup_isSome _ _).1 hps)
              have h4 := (alookup_isSome info.Extends raw).2 h3
              rw [hpd] at h4
              simp at h4
            · exact hp'
          have hpnone' : alookup p.1 ((name, oc) :: ocs) = none := by
            rw [alookup_cons, if_neg]
            · exact hpnone
            · intro hc
              exact hnd.1 (hc ▸ mem_keys_of_mem hprest)
          refine ih hent' hnd.2 ⟨p, hprest, hpx, hpdangling, hpnone'⟩ (fun x hx => ?_)
          simp only [keysOf, List.map_cons, List.mem_cons] at hx
          rcases hx with rfl | hx
          · exact mem_keys_of_mem (hent _ (List.mem_cons_self _ _))
          · exact hsub hx

/-- The first iteration of the resolver loop, unfolded once. -/
theorem operatorClasses_first_pass (raw : List (String × OperClassConfig)) :
    operatorClasses raw =
      match operClassesPass raw raw [] false with
      | .error e => .error e
      | .ok (ocs', anyMissing) =>
        if anyMissing then operClassesLoop raw (raw.length + 1) 0 ocs' else .ok ocs' := by
  rw [operatorClasses]
  show operClassesLoop raw (raw.length + 1 + 1) (-1) [] = _
  rw [operClassesLoop]
  rw [if_neg (by decide)]
  norm_num

/-! ## Two mutually extending classes defer forever -/

theorem pass_defers_pair {raw : List (String × OperClassConfig)}
    (hnd : (keysOf raw).Nodup) {A B : String} {iA iB : OperClassConfig}
    (hA : (A, iA) ∈ raw) (hB : (B, iB) ∈ raw)
    (hAB : iA.Extends = B) (hBA : iB.Extends = A)
    (hBne : B ≠ "") (hAne : A ≠ "") :
    ∀ {entries : List (String × OperClassConfig)} {ocs ocs' : List (String × OperClass)}
      {f f' : Bool},
      (∀ p ∈ entries, p ∈ raw) →
      alookup A ocs = none → alookup B ocs = none →
      operClassesPass raw entries ocs f = .ok (ocs', f') →
      alookup A ocs' = none ∧ alookup B ocs' = none ∧ ((A, iA) ∈ entries → f' = true) := by
  intro entries
  induction entries with
  | nil =>
    intro ocs ocs' f f' _ hnA hnB h
    simp only [operClassesPass, Except.ok.injEq, Prod.mk.injEq] at h
    rw [← h.1]
    exact ⟨hnA, hnB, by simp⟩
  | cons q rest ih =>
    intro ocs ocs' f f' hent hnA hnB h
    obtain ⟨name, info⟩ := q
    have hent' : ∀ p ∈ rest, p ∈ raw := fun p hp => hent p (List.mem_cons_of_mem _ hp)
    have hmemr : (name, info) ∈ raw := hent _ (List.mem_cons_self _ _)
    rw [operClassesPass] at h
    by_cases hnameA : name = A
    · -- the head is the record A: its base B is still unresolved, so it defers
      subst hnameA
      have hieq : info = iA := value_unique hnd hmemr hA
      subst hieq
      split at h
      · rename_i hc1
        rw [hnA] at hc1
        simp at hc1
      · split at h
        · split at h
          · obtain ⟨h1, h2, _⟩ := ih hent' hnA hnB h
            exact ⟨h1, h2, fun _ => pass_flag_true h⟩
          · simp at h
        · rename_i hc1 hc2
          exfalso
          apply hc2
          rw [Bool.and_eq_true, decide_eq_true_eq, Bool.not_eq_true']
          constructor
          · rw [hAB]
            exact (string_ne_empty_iff B).1 hBne
          · rw [hAB, hnB]
            rfl
    · by_cases hnameB : name = B
      · -- the head is the record B: its base A is still unresolved, so it defers
        subst hnameB
        have hieq : info = iB := value_unique hnd hmemr hB
        subst hieq
        split at h
        · rename_i hc1
          rw [hnB] at hc1
          simp at hc1
        · split at h
          · split at h
            · obtain ⟨h1, h2, _⟩ := ih hent' hnA hnB h
              refine ⟨h1, h2, fun hmem => ?_⟩
              exact pass_flag_true h
            · simp at h
          · rename_i hc1 hc2
            exfalso
            apply hc2
            rw [Bool.and_eq_true, decide_eq_true_eq, Bool.not_eq_true']
            constructor
            · rw [hBA]
              exact (string_ne_empty_iff A).1 hAne
            · rw [hBA, hnA]
              rfl
      · -- any other head record leaves A and B untouched
        have hAmem : (A, iA) ∈ (name, info) :: rest → (A, iA) ∈ rest := by
          intro hm
          rcases List.mem_cons.1 hm with heq | hm'
          · exact absurd (congrArg Prod.fst heq).symm hnameA
          · exact hm'
        split at h
        · obtain ⟨h1, h2, h3⟩ := ih hent' hnA hnB h
          exact ⟨h1, h2, fun hm => h3 (hAmem hm)⟩
        · split at h
          · split at h
            · obtain ⟨h1, h2, h3⟩ := ih hent' hnA hnB h
              exact ⟨h1, h2, fun _ => pass_flag_true h⟩
            · simp at h
          · split at h
            · simp at h
            · rename_i hc1 hc2 hx oc heq
              have hnA' : alookup A ((name, oc) :: ocs) = none := by
                rw [alookup_cons, if_neg (fun hc => hnameA hc.symm)]
                exact hnA
              have hnB' : alookup B ((name, oc) :: ocs) = none := by
                rw [alookup_cons, if_neg (fun hc => hnameB hc.symm)]
                exact hnB
              obtain ⟨h1, h2, h3⟩ := ih hent' hnA' hnB' h
              exact ⟨h1, h2, fun hm => h3 (hAmem hm)⟩

theorem loop_stalls_pair {raw : List (String × OperClassConfig)}
    (hnd : (keysOf raw).Nodup) (hndg : NoDangling raw) (hto : TitlesOk raw)
    {A B : String} {iA iB : OperClassConfig}
    (hA : (A, iA) ∈ raw) (hB : (B, iB) ∈ raw)
    (hAB : iA.Extends = B) (hBA : iB.Extends = A)
    (hBne : B ≠ "") (hAne : A ≠ "") :
    ∀ (fuel : Nat) (lenLast : Int) (ocs : List (String × OperClass)),
      (keysOf ocs).Nodup → keysOf ocs ⊆ keysOf raw →
      alookup A ocs = none → alookup B ocs = none →
      raw.length + 2 ≤ fuel + ocs.length →
      operClassesLoop raw fuel lenLast ocs = .error .loopingDependency := by
  intro fuel
  induction fuel with
  | zero =>
    intro lenLast ocs hocnd hsub _ _ hfuel
    have hle : ocs.length ≤ raw.length := by
      have h1 := keys_length_le hocnd hsub
      simpa [keysOf] using h1
    omega
  | succ fuel ih =>
    intro lenLast ocs hocnd hsub hnA hnB hfuel
    rw [operClassesLoop]
    by_cases hif : (ocs.length : Int) = lenLast
    · rw [if_pos hif]
    · rw [if_neg hif]
      obtain ⟨⟨ocs', flag⟩, hp⟩ :=
        @pass_no_error raw hndg hto raw ocs false (fun p hp => hp)
      rw [hp]
      obtain ⟨hnA', hnB', hflag⟩ :=
        pass_defers_pair hnd hA hB hAB hBA hBne hAne (fun p hp => hp) hnA hnB hp
      rw [hflag hA]
      simp only [if_pos rfl]
      have hocnd' := pass_keys_nodup hp hocnd
      have hsub' := pass_keys_sub hp (fun p hp => hp) hsub
      have hle' : ocs'.length ≤ raw.length := by
        have h1 := keys_length_le hocnd' hsub'
        simpa [keysOf] using h1
      have hge : ocs.length ≤ ocs'.length := by
        obtain ⟨add, rfl, _⟩ := pass_append hp
        simp [List.length_append]
      by_cases hgr : ocs.length < ocs'.length
      · exact ih (ocs.length : Int) ocs' hocnd' hsub' hnA' hnB' (by omega)
      · have hlen : ocs'.length = ocs.length := by omega
        obtain ⟨fuel', rfl⟩ : ∃ fuel', fuel = fuel' + 1 := ⟨fuel - 1, by omega⟩
        rw [operClassesLoop]
        have hcond : ((ocs'.length : Nat) : Int) = ((ocs.length : Nat) : Int) := by
          exact_mod_cast hlen
        rw [if_pos hcond]
        simp

/-! ## The successful result is the canonical map, hence order-independent -/

theorem ancestorChain_congr {raw1 raw2 : List (String × OperClassConfig)}
    (hlk : ∀ k, alookup k raw1 = alookup k raw2) :
    ∀ (f : Nat) (n : String), ancestorChain raw1 f n = ancestorChain raw2 f n := by
  intro f
  induction f with
  | zero => intro n; rfl
  | succ f ih =>
    intro n
    rw [ancestorChain, ancestorChain, hlk n]
    cases alookup n raw2 with
    | none => rfl
    | some info =>
      simp only [Option.some_bind]
      by_cases hx : info.Extends.length > 0
      · rw [if_pos hx, if_pos hx, ih]
      · rw [if_neg hx, if_neg hx]

theorem chainCaps_congr {raw1 raw2 : List (String × OperClassConfig)}
    (hlk : ∀ k, alookup k raw1 = alookup k raw2) (hlen : raw1.length = raw2.length)
    (n : String) : chainCaps raw1 n = chainCaps raw2 n := by
  have hfold : ∀ l : List String,
      l.foldr (fun m s => ownCaps raw1 m ∪ s) ∅ = l.foldr (fun m s => ownCaps raw2 m ∪ s) ∅ := by
    intro l
    induction l with
    | nil => rfl
    | cons a t ih2 =>
      simp only [List.foldr_cons]
      rw [ih2, ownCaps, ownCaps, hlk a]
  rw [chainCaps, chainCaps, hlen, ancestorChain_congr hlk]
  cases ancestorChain raw2 raw2.length n with
  | none => rfl
  | some l => simp [hfold l]

theorem canonicalClass_congr {raw1 raw2 : List (String × OperClassConfig)}
    (hlk : ∀ k, alookup k raw1 = alookup k raw2) (hlen : raw1.length = raw2.length)
    (n : String) : canonicalClass raw1 n = canonicalClass raw2 n := by
  rw [canonicalClass, canonicalClass, hlk n]
  cases alookup n raw2 with
  | none => rfl
  | some info =>
    simp only [Option.some_bind]
    rw [chainCaps_congr hlk hlen]

theorem ok_lookup_canonical {raw : List (String × OperClassConfig)}
    {m : List (String × OperClass)} (hwf : ClassesWF raw)
    (h : operatorClasses raw = .ok m) : ∀ k, alookup k m = canonicalClass raw k := by
  have hg : GoodOcs raw [] := fun n oc h0 => by simp [alookup] at h0
  rw [operatorClasses] at h
  obtain ⟨hgood, hall⟩ := loop_ok_good hwf hg h
  intro k
  cases hk : alookup k m with
  | some oc => exact (hgood k oc hk).symm
  | none =>
    cases hr : alookup k raw with
    | none => rw [canonicalClass, hr]; rfl
    | some info =>
      exfalso
      have hmem := mem_of_alookup hr
      have hs : (alookup k m).isSome = true := hall (k, info) hmem
      rw [hk] at hs
      simp at hs

/-! ## Lemmas about the operator binder -/

theorem operAux_lookup_pres {cf : String → Option String} {dp : String → List Nat}
    {oc : List (String × OperClass)} :
    ∀ {rest : List (String × OperConfig)} {acc m : List (String × Oper)} {k : String}
      {v : Oper},
      operatorsAux cf dp oc rest acc = .ok m → alookup k acc = some v →
      (∀ q ∈ rest, cf q.1 ≠ some k) → alookup k m = some v := by
  intro rest
  induction rest with
  | nil =>
    intro acc m k v h hk _
    simp only [operatorsAux, Except.ok.injEq] at h
    rw [← h]
    exact hk
  | cons q rest ih =>
    intro acc m k v h hk hne
    obtain ⟨nm, conf⟩ := q
    rw [operatorsAux] at h
    cases hcf : cf nm with
    | none => rw [hcf] at h; simp at h
    | some n0 =>
      rw [hcf] at h
      simp only at h
      cases hcl : alookup conf.Class oc with
      | none => rw [hcl] at h; simp at h
      | some cls =>
        rw [hcl] at h
        simp only at h
        refine ih h ?_ (fun p hp => hne p (List.mem_cons_of_mem _ hp))
        rw [alookup_cons, if_neg]
        · exact hk
        · intro hkn
          exact hne (nm, conf) (List.mem_cons_self _ _) (by rw [hcf, hkn])

theorem operAux_mem_ok {cf : String → Option String} {dp : String → List Nat}
    {oc : List (String × OperClass)} :
    ∀ {rest : List (String × OperConfig)} {acc m : List (String × Oper)}
      {rn : String} {conf : OperConfig} {n : String} {cls : OperClass},
      operatorsAux cf dp oc rest acc = .ok m → (rn, conf) ∈ rest → cf rn = some n →
      alookup conf.Class oc = some cls → (rest.map (fun q => cf q.1)).Nodup →
      ∃ oper, alookup n m = some oper ∧
        oper.WhoisLine = (if conf.WhoisLine.length > 0 then conf.WhoisLine else cls.WhoisLine) ∧
        oper.Class = cls ∧ oper.Vhost = conf.Vhost ∧ oper.Pass = dp conf.Password ∧
        oper.Modes = goTrimSpace conf.Modes := by
  intro rest
  induction rest with
  | nil =>
    intro acc m rn conf n cls _ hmem _ _ _
    simp at hmem
  | cons q rest ih =>
    intro acc m rn conf n cls h hmem hcf hcl hnd
    obtain ⟨nm, c0⟩ := q
    simp only [List.map_cons, List.nodup_cons] at hnd
    rw [operatorsAux] at h
    rcases List.mem_cons.1 hmem with heq | hmem'
    · rw [Prod.mk.injEq] at heq
      obtain ⟨rfl, rfl⟩ := heq
      rw [hcf] at h
      simp only at h
      rw [hcl] at h
      simp only at h
      refine ⟨{ Class := cls,
                Pass := dp conf.Password,
                Vhost := conf.Vhost,
                WhoisLine := (if conf.WhoisLine.length > 0 then conf.WhoisLine else cls.WhoisLine),
                Modes := goTrimSpace conf.Modes },
        operAux_lookup_pres h ?_ ?_, rfl, rfl, rfl, rfl, rfl⟩
      · rw [alookup_cons, if_pos rfl]
      · intro p hp hc
        exact hnd.1 (hcf ▸ hc ▸ List.mem_map_of_mem (fun q => cf q.1) hp)
    · cases hcf0 : cf nm with
      | none => rw [hcf0] at h; simp at h
      | some n0 =>
        rw [hcf0] at h
        simp only at h
        cases hcl0 : alookup c0.Class oc with
        | none => rw [hcl0] at h; simp at h
        | some cls0 =>
          rw [hcl0] at h
          simp only at h
          exact ih h hmem' hcf hcl hnd.2

theorem operAux_unknown {cf : String → Option String} {dp : String → List Nat}
    {oc : List (String × OperClass)} :
    ∀ {rest : List (String × OperConfig)} {acc : List (String × Oper)},
      (∀ q ∈ rest, (cf q.1).isSome) →
      (∃ q ∈ rest, alookup q.2.Class oc = none) →
      ∃ n c, operatorsAux cf dp oc rest acc = .error (.unknownClass n c) ∧
        alookup c oc = none ∧
        ∃ rn conf, (rn, conf) ∈ rest ∧ cf rn = some n ∧ conf.Class = c := by
  intro rest
  induction rest with
  | nil =>
    intro acc _ hex
    simp at hex
  | cons q rest ih =>
    intro acc hcf hex
    obtain ⟨nm, c0⟩ := q
    obtain ⟨n0, hn0⟩ := Option.isSome_iff_exists.1 (hcf (nm, c0) (List.mem_cons_self _ _))
    rw [operatorsAux]
    rw [hn0]
    simp only
    cases hcl : alookup c0.Class oc with
    | none =>
      exact ⟨n0, c0.Class, rfl, hcl, nm, c0, List.mem_cons_self _ _, hn0, rfl⟩
    | some cls =>
      obtain ⟨p, hpmem, hpcl⟩ := hex
      have hprest : p ∈ rest := by
        rcases List.mem_cons.1 hpmem with rfl | hp'
        · rw [hpcl] at hcl; simp at hcl
        · exact hp'
      obtain ⟨n, c, h1, h2, rn, conf, h3, h4, h5⟩ :=
        ih (fun p hp => hcf p (List.mem_cons_of_mem _ hp)) ⟨p, hprest, hpcl⟩
      exact ⟨n, c, h1, h2, rn, conf, List.mem_cons_of_mem _ h3, h4, h5⟩

/-! ## Lemmas about the logging normalizer -/

theorem parseTypes_error_shape :
    ∀ {l tys extys : List String} {e : ConfigError},
      parseTypes tys extys l = .error e → e = .bareNegationType := by
  intro l
  induction l with
  | nil =>
    intro tys extys e h
    simp [parseTypes] at h
  | cons t rest ih =>
    intro tys extys e h
    rw [parseTypes] at h
    split at h
    · exact ih h
    · split at h
      · simp only [Except.error.injEq] at h
        exact h.symm
      · split at h
        · exact ih h
        · exact ih h

/-! ## The claims -/

/-- Claim C1, counterexample: the claim asserts that every operator-class set
with no extends cycle and no dangling reference resolves successfully, but a
single record with empty title and empty whois line — well formed in that
sense — makes `OperatorClasses` hit the `Title[0]` index panic instead of
returning a resolved map. -/
theorem claim_C1_counterexample :
    ClassesWF [("x", ⟨"", "", "", []⟩)] ∧
    operatorClasses [("x", ⟨"", "", "", []⟩)] = .error .emptyTitleIndex := by
  constructor
  · decide
  · decide

/-- Claim C1 (amended with the non-empty-title proviso the counterexample
forces): for every class-record set with distinct names, no extends cycle and
no dangling extends reference (`ClassesWF`), in which every record has an
explicit whois line or a non-empty title (`TitlesOk`), `OperatorClasses`
terminates successfully, every class resolves, each resolved capability set
is the union of the record's own capabilities and those of all its ancestors
along the extends chain (`chainCaps`), and on an already-flat set (no record
extends) every class keeps exactly its own capabilities. -/
theorem claim_C1 (raw : List (String × OperClassConfig))
    (hwf : ClassesWF raw) (hto : TitlesOk raw) :
    ∃ m, operatorClasses raw = .ok m ∧
      (∀ p ∈ raw, ∃ oc, alookup p.1 m = some oc ∧ oc.Capabilities = chainCaps raw p.1) ∧
      ((∀ p ∈ raw, p.2.Extends = "") →
        ∀ p ∈ raw, ∃ oc, alookup p.1 m = some oc ∧
          oc.Capabilities = p.2.Capabilities.toFinset) := by
  obtain ⟨m, hm⟩ := loop_succeeds hwf hto (raw.length + 2) (-1) []
    (by simp [keysOf]) (by intro x hx; simp [keysOf] at hx) (by decide) (by simp)
  have hok : operatorClasses raw = .ok m := by rw [operatorClasses]; exact hm
  have hcan := ok_lookup_canonical hwf hok
  refine ⟨m, hok, ?_, ?_⟩
  · intro p hp
    have hlk : alookup p.1 raw = some p.2 := alookup_of_mem hwf.1 hp
    obtain ⟨w, hw⟩ := Option.isSome_iff_exists.1 (specWhois_isSome (hto p hp))
    rw [hcan p.1, canonicalClass_intro hlk hw]
    exact ⟨_, rfl, rfl⟩
  · intro hflat p hp
    have hlk : alookup p.1 raw = some p.2 := alookup_of_mem hwf.1 hp
    obtain ⟨w, hw⟩ := Option.isSome_iff_exists.1 (specWhois_isSome (hto p hp))
    rw [hcan p.1, canonicalClass_intro hlk hw]
    refine ⟨_, rfl, ?_⟩
    show chainCaps raw p.1 = p.2.Capabilities.toFinset
    exact chainCaps_eq_own hlk (by rw [hflat p hp]; decide)

/-- Claim C1, witness: a concrete two-class hierarchy (`a` extends `b`)
satisfies the amended hypotheses and resolves with the expected unions. -/
theorem claim_C1_witness :
    ClassesWF [("a", ⟨"A", "wa", "b", ["x"]⟩), ("b", ⟨"B", "wb", "", ["y"]⟩)] ∧
    TitlesOk [("a", ⟨"A", "wa", "b", ["x"]⟩), ("b", ⟨"B", "wb", "", ["y"]⟩)] ∧
    ∃ m, operatorClasses [("a", ⟨"A", "wa", "b", ["x"]⟩), ("b", ⟨"B", "wb", "", ["y"]⟩)] =
        .ok m ∧
      (∀ p ∈ [(("a" : String), (⟨"A", "wa", "b", ["x"]⟩ : OperClassConfig)),
              ("b", ⟨"B", "wb", "", ["y"]⟩)], ∃ oc, alookup p.1 m = some oc ∧
        oc.Capabilities =
          chainCaps [("a", ⟨"A", "wa", "b", ["x"]⟩), ("b", ⟨"B", "wb", "", ["y"]⟩)] p.1) ∧
      ((∀ p ∈ [(("a" : String), (⟨"A", "wa", "b", ["x"]⟩ : OperClassConfig)),
               ("b", ⟨"B", "wb", "", ["y"]⟩)], p.2.Extends = "") →
        ∀ p ∈ [(("a" : String), (⟨"A", "wa", "b", ["x"]⟩ : OperClassConfig)),
               ("b", ⟨"B", "wb", "", ["y"]⟩)], ∃ oc, alookup p.1 m = some oc ∧
          oc.Capabilities = p.2.Capabilities.toFinset) :=
  ⟨by decide, by decide, claim_C1 _ (by decide) (by decide)⟩

/-- Claim C2: the code disagrees with the claim.  The vowel test on line 307
of config.go is `strings.Contains(strings.ToLower(string(oc.Title[0])), "aeiou")`,
which asks whether the five-character string `"aeiou"` occurs inside a
one-character string and is therefore always false, so a class titled
"Admin" with no explicit whois line resolves to `"is a Admin"`, never
`"is an Admin"`; the spec states the clear intent (choose "an" when the
first character is a vowel), making this a bug in the code. -/
theorem claim_C2_eval :
    operatorClasses [("admin", ⟨"Admin", "", "", []⟩), ("bot", ⟨"Bot", "", "", []⟩)] =
      .ok [("bot", ⟨"Bot", "is a Bot", ∅⟩), ("admin", ⟨"Admin", "is a Admin", ∅⟩)] ∧
    ("is a Admin" : String) ≠ "is an Admin" := by
  constructor
  · decide
  · decide

/-- Claim C3, counterexample: the claim asserts that every input containing a
mutually extending pair fails with the looping-dependency error, but a
dangling reference elsewhere in the set is reported first: this input
contains the mutual pair `a`/`b` yet fails with a missing-base error. -/
theorem claim_C3_counterexample :
    operatorClasses [("d", ⟨"T", "w", "Z", []⟩),
                     ("a", ⟨"A", "w", "b", []⟩),
                     ("b", ⟨"B", "w", "a", []⟩)] = .error (.missingBase "d" "Z") := by
  decide

/-- Claim C3 (amended: the input must additionally have no dangling extends
reference and no record that panics the whois defaulting, as the
counterexample forces): a set with distinct names containing two mutually
extending classes always fails with the looping-dependency error; and, as
stated in general terms, whenever a full pass starting from the current
result map returns with the map size unchanged while some record is still
unresolved, the loop fails with that error rather than iterating forever. -/
theorem claim_C3 :
    (∀ (raw : List (String × OperClassConfig)) (A B : String)
       (iA iB : OperClassConfig),
       (keysOf raw).Nodup → NoDangling raw → TitlesOk raw →
       (A, iA) ∈ raw → (B, iB) ∈ raw → iA.Extends = B → iB.Extends = A →
       A ≠ "" → B ≠ "" →
       operatorClasses raw = .error .loopingDependency) ∧
    (∀ (raw : List (String × OperClassConfig)) (ocs ocs' : List (String × OperClass))
       (lenLast : Int) (fuel : Nat) (flag : Bool),
       (ocs.length : Int) ≠ lenLast →
       operClassesPass raw raw ocs false = .ok (ocs', flag) →
       ocs'.length = ocs.length →
       (∃ p ∈ raw, alookup p.1 ocs' = none) →
       operClassesLoop raw (fuel + 2) lenLast ocs = .error .loopingDependency) := by
  constructor
  · intro raw A B iA iB hnd hndg hto hA hB hAB hBA hAne hBne
    rw [operatorClasses]
    exact loop_stalls_pair hnd hndg hto hA hB hAB hBA hBne hAne (raw.length + 2) (-1) []
      (by simp [keysOf]) (by intro x hx; simp [keysOf] at hx) rfl rfl (by simp)
  · intro raw ocs ocs' lenLast fuel flag hne hpass hlen hun
    cases flag with
    | false =>
      obtain ⟨p, hp, hnone⟩ := hun
      have hs := pass_all_some_of_false hpass p hp
      rw [hnone] at hs
      simp at hs
    | true =>
      rw [operClassesLoop, if_neg hne, hpass]
      simp only [if_pos rfl]
      rw [operClassesLoop]
      have hcond : ((ocs'.length : Nat) : Int) = ((ocs.length : Nat) : Int) := by
        exact_mod_cast hlen
      rw [if_pos hcond]
      simp

/-- Claim C3, witness: the mutual pair `a`/`b` on its own makes the resolver
fail with the looping-dependency error. -/
theorem claim_C3_witness :
    operatorClasses [("a", ⟨"A", "w", "b", []⟩), ("b", ⟨"B", "w", "a", []⟩)] =
      .error .loopingDependency :=
  claim_C3.1 _ "a" "b" ⟨"A", "w", "b", []⟩ ⟨"B", "w", "a", []⟩
    (by decide) (by decide) (by decide) (by decide) (by decide)
    rfl rfl (by decide) (by decide)

/-- Claim C4, counterexample: the claim asserts that every input with a
dangling extends target fails with the missing-base error, but a record with
empty title and empty whois line that is examined first makes the resolver
hit the `Title[0]` panic instead, so the run does not produce a missing-base
error even though the set contains the dangling record `d` extends `Z`. -/
theorem claim_C4_counterexample :
    alookup "Z" [(("x" : String), (⟨"", "", "", []⟩ : OperClassConfig)),
                 ("d", ⟨"T", "w", "Z", []⟩)] = none ∧
    operatorClasses [("x", ⟨"", "", "", []⟩), ("d", ⟨"T", "w", "Z", []⟩)] =
      .error .emptyTitleIndex := by
  constructor
  · decide
  · decide

/-- Claim C4 (amended with the non-empty-title proviso the counterexample
forces): for a set with distinct names containing a record whose extends
target is absent, the resolver fails with a missing-base error naming an
extending class and its missing base, provided no record panics the whois
defaulting; and unconditionally such a run never returns the
looping-dependency error. -/
theorem claim_C4 (raw : List (String × OperClassConfig))
    (hnd : (keysOf raw).Nodup)
    (hdang : ∃ p ∈ raw, p.2.Extends ≠ "" ∧ alookup p.2.Extends raw = none) :
    (TitlesOk raw →
      ∃ a b, operatorClasses raw = .error (.missingBase a b) ∧ alookup b raw = none ∧
        ∃ j, (a, j) ∈ raw ∧ j.Extends = b) ∧
    operatorClasses raw ≠ .error .loopingDependency := by
  have hdang' : ∃ p ∈ raw, p.2.Extends.length > 0 ∧ alookup p.2.Extends raw = none ∧
      alookup p.1 ([] : List (String × OperClass)) = none := by
    obtain ⟨p, hp, hne, hno⟩ := hdang
    exact ⟨p, hp, (string_ne_empty_iff _).1 hne, hno, rfl⟩
  constructor
  · intro hto
    obtain ⟨a, b, hpe, hb, j, hj, hjb⟩ :=
      @pass_dangling raw hto raw [] false (fun p hp => hp) hnd hdang'
        (by intro x hx; simp [keysOf] at hx)
    rw [operatorClasses_first_pass]
    simp only [hpe]
    exact ⟨a, b, rfl, hb, j, hj, hjb⟩
  · obtain ⟨e, hpe⟩ :=
      @pass_dangling_err raw raw [] false (fun p hp => hp) hnd hdang'
        (by intro x hx; simp [keysOf] at hx)
    rw [operatorClasses_first_pass]
    simp only [hpe]
    intro hc
    rcases pass_error_shape hpe with h1 | ⟨x, y, h1⟩ <;> subst h1 <;> simp at hc

/-- Claim C4, witness: a single dangling record fails and the failure is not
the looping-dependency error. -/
theorem claim_C4_witness :
    isErr (operatorClasses [("d", ⟨"T", "w", "Z", []⟩)]) = true ∧
    operatorClasses [("d", ⟨"T", "w", "Z", []⟩)] ≠ .error .loopingDependency := by
  have h := claim_C4 [("d", ⟨"T", "w", "Z", []⟩)] (by decide)
    ⟨("d", ⟨"T", "w", "Z", []⟩), by decide, by decide, by decide⟩
  refine ⟨?_, h.2⟩
  obtain ⟨a, b, heq, _⟩ := h.1 (by decide)
  rw [heq]
  rfl

/-- Claim C5: the example logging directive with method `"file stdout"`,
level `"info"`, type `"server -connect"` and a non-empty filename normalizes
to sink flags file and stdout (not stderr), included types `["server"]` and
excluded types `["connect"]`; and any directive whose type parsing leaves
the included type list empty fails with an error. -/
theorem claim_C5 :
    (normalizeLogConfig
        ⟨"file stdout", false, false, false, "ircd.log", "server -connect",
         [], [], "info", 0⟩ =
      .ok ⟨"file stdout", true, false, true, "ircd.log", "server -connect",
           ["server"], ["connect"], "info", 20⟩) ∧
    (∀ (lc : LoggingConfig) (tys extys : List String),
      parseTypes lc.Types lc.ExcludedTypes (goSplitSpace lc.TypeString) = .ok (tys, extys) →
      tys = [] → isErr (normalizeLogConfig lc) = true) := by
  constructor
  · decide
  · intro lc tys extys hpt hte
    rw [normalizeLogConfig]
    by_cases hcond : ("file" ∈ methodTokens lc.Method ∧ lc.Filename = "")
    · rw [if_pos hcond]
      rfl
    · rw [if_neg hcond]
      simp only
      cases hlv : alookup (lowerStr lc.LevelString) LogLevelNames with
      | none => rfl
      | some lvl =>
        simp only [hpt, hte]
        rfl

/-- Claim C5, witness: a directive whose type string is empty parses to an
empty included list and the normalizer rejects it. -/
theorem claim_C5_witness :
    isErr (normalizeLogConfig
      ⟨"stdout", false, false, false, "", "", [], [], "info", 0⟩) = true :=
  claim_C5.2 ⟨"stdout", false, false, false, "", "", [], [], "info", 0⟩ [] []
    (by decide) rfl

/-- Claim C6: a logging directive whose lowercased method tokens include
`file` while the filename is empty fails with the file/filename mismatch
error, and a directive with a non-empty filename never fails with that
error. -/
theorem claim_C6 :
    (∀ lc : LoggingConfig, "file" ∈ methodTokens lc.Method → lc.Filename = "" →
      normalizeLogConfig lc = .error .fileFilenameMismatch) ∧
    (∀ lc : LoggingConfig, lc.Filename ≠ "" →
      normalizeLogConfig lc ≠ .error .fileFilenameMismatch) := by
  constructor
  · intro lc hf hn
    rw [normalizeLogConfig]
    rw [if_pos ⟨hf, hn⟩]
  · intro lc hn
    rw [normalizeLogConfig]
    rw [if_neg (fun hc => hn hc.2)]
    intro hc
    split at hc
    · simp at hc
    · simp only at hc
      split at hc
      · rename_i e heq
        have he := parseTypes_error_shape heq
        subst he
        simp at hc
      · split at hc
        · simp at hc
        · simp at hc

/-- Claim C6, witness: the mismatch fires on a concrete `file` directive with
no filename, and a directive with a filename avoids that error. -/
theorem claim_C6_witness :
    normalizeLogConfig ⟨"file", false, false, false, "", "server", [], [], "info", 0⟩ =
      .error .fileFilenameMismatch ∧
    normalizeLogConfig ⟨"file", false, false, false, "a.log", "server", [], [], "info", 0⟩ ≠
      .error .fileFilenameMismatch :=
  ⟨claim_C6.1 _ (by decide) rfl, claim_C6.2 _ (by decide)⟩

/-- Claim C7: for a well-formed record set (distinct names, no cycle, no
dangling reference), any two runs of the resolver that enumerate the records
in different orders and return mappings return the same mapping: every name
looks up to the same resolved class in both. -/
theorem claim_C7 (raw1 raw2 : List (String × OperClassConfig))
    (m1 m2 : List (String × OperClass))
    (hperm : raw1.Perm raw2) (hwf : ClassesWF raw1)
    (h1 : operatorClasses raw1 = .ok m1) (h2 : operatorClasses raw2 = .ok m2) :
    ∀ k, alookup k m1 = alookup k m2 := by
  have hlkeq : ∀ k, alookup k raw1 = alookup k raw2 := alookup_perm hperm hwf.1
  have hlen : raw1.length = raw2.length := hperm.length_eq
  have hwf2 : ClassesWF raw2 := by
    refine ⟨keys_nodup_of_perm hperm hwf.1, fun p hp => ?_⟩
    rw [← ancestorChain_congr hlkeq, ← hlen]
    exact hwf.2 p (hperm.mem_iff.2 hp)
  intro k
  rw [ok_lookup_canonical hwf h1 k, ok_lookup_canonical hwf2 h2 k]
  exact canonicalClass_congr hlkeq hlen k

/-- Claim C7, witness: two enumeration orders of a three-class set produce
result lists that differ as lists but agree as mappings. -/
theorem claim_C7_witness :
    alookup "a"
        [("a", (⟨"A", "wa", (["x", "y"] : List String).toFinset⟩ : OperClass)),
         ("c", ⟨"C", "wc", (["z"] : List String).toFinset⟩),
         ("b", ⟨"B", "wb", (["y"] : List String).toFinset⟩)] =
      alookup "a"
        [("a", (⟨"A", "wa", (["x", "y"] : List String).toFinset⟩ : OperClass)),
         ("b", ⟨"B", "wb", (["y"] : List String).toFinset⟩),
         ("c", ⟨"C", "wc", (["z"] : List String).toFinset⟩)] :=
  claim_C7
    [("a", ⟨"A", "wa", "b", ["x"]⟩), ("b", ⟨"B", "wb", "", ["y"]⟩),
     ("c", ⟨"C", "wc", "", ["z"]⟩)]
    [("c", ⟨"C", "wc", "", ["z"]⟩), ("b", ⟨"B", "wb", "", ["y"]⟩),
     ("a", ⟨"A", "wa", "b", ["x"]⟩)]
    _ _ (by decide) (by decide) (by decide) (by decide) "a"

/-- Claim C8: with the external casefolding collaborator succeeding on every
operator name, if some raw operator references a class name absent from the
resolved class mapping then `Operators` fails with an unknown-class error
carrying a (casefolded) operator name and its missing class name; and for
every entry whose class is present, a successful run binds an operator whose
whois line is the entry's own override when non-empty and the class's whois
line otherwise. -/
theorem claim_C8 :
    (∀ (cf : String → Option String) (dp : String → List Nat)
       (opers : List (String × OperConfig)) (oc : List (String × OperClass)),
       (∀ q ∈ opers, (cf q.1).isSome) →
       (∃ q ∈ opers, alookup q.2.Class oc = none) →
       ∃ n c, operatorsMap cf dp opers oc = .error (.unknownClass n c) ∧
         alookup c oc = none ∧
         ∃ rn conf, (rn, conf) ∈ opers ∧ cf rn = some n ∧ conf.Class = c) ∧
    (∀ (cf : String → Option String) (dp : String → List Nat)
       (opers : List (String × OperConfig)) (oc : List (String × OperClass))
       (m : List (String × Oper)) (rn : String) (conf : OperConfig) (n : String)
       (cls : OperClass),
       operatorsMap cf dp opers oc = .ok m → (rn, conf) ∈ opers → cf rn = some n →
       alookup conf.Class oc = some cls → (opers.map (fun q => cf q.1)).Nodup →
       ∃ oper, alookup n m = some oper ∧
         oper.WhoisLine =
           (if conf.WhoisLine.length > 0 then conf.WhoisLine else cls.WhoisLine)) := by
  constructor
  · intro cf dp opers oc hcf hex
    exact operAux_unknown hcf hex
  · intro cf dp opers oc m rn conf n cls h hmem hcf hcl hnd
    obtain ⟨oper, h1, h2, _⟩ := operAux_mem_ok h hmem hcf hcl hnd
    exact ⟨oper, h1, h2⟩

/-- Claim C8, witness: a dangling class reference is reported as an
unknown-class error, and a bound operator with no override inherits the
class whois line. -/
theorem claim_C8_witness :
    isErr (operatorsMap (fun s => some s) (fun _ => [])
      [("alice", ⟨"root", "", "", "pw", ""⟩)] []) = true ∧
    (alookup "bob" [(("bob" : String),
      (⟨⟨"T", "wl", ∅⟩, "wl", "vh", [], "+a"⟩ : Oper))]).isSome = true := by
  constructor
  · obtain ⟨n, c, heq, _⟩ :=
      claim_C8.1 (fun s => some s) (fun _ => [])
        [("alice", ⟨"root", "", "", "pw", ""⟩)] []
        (by intro q hq; rfl) ⟨("alice", ⟨"root", "", "", "pw", ""⟩), by decide, rfl⟩
    rw [heq]
    rfl
  · obtain ⟨oper, hop, _⟩ :=
      claim_C8.2 (fun s => some s) (fun _ => [])
        [("bob", ⟨"cls", "vh", "", "pw", " +a "⟩)] [("cls", ⟨"T", "wl", ∅⟩)]
        [("bob", ⟨⟨"T", "wl", ∅⟩, "wl", "vh", [], "+a"⟩)]
        "bob" ⟨"cls", "vh", "", "pw", " +a "⟩ "bob" ⟨"T", "wl", ∅⟩
        (by decide) (by decide) rfl (by decide) (by decide)
    rw [hop]
    rfl

/-- Claim C9: the whois-line defaulting reads `Title[0]` without checking
that the title is non-empty, so a record set with distinct names containing
a record with empty whois line and empty title never resolves normally, and
the corresponding error branch of the total embedding is reachable. -/
theorem claim_C9 :
    (∀ raw : List (String × OperClassConfig),
      (keysOf raw).Nodup →
      (∃ p ∈ raw, p.2.WhoisLine = "" ∧ p.2.Title = "") →
      ∀ m, operatorClasses raw ≠ .ok m) ∧
    operatorClasses [("x", ⟨"", "", "", []⟩)] = .error .emptyTitleIndex := by
  constructor
  · intro raw hnd hex m
    obtain ⟨p, hp, hw, ht⟩ := hex
    rw [operatorClasses]
    exact loop_never_ok hnd hp hw ht (raw.length + 2) (-1) [] rfl m
  · decide

/-- Claim C9, witness: a concrete set containing an empty-titled record with
no whois line does not return normally even though another record resolves. -/
theorem claim_C9_witness :
    isErr (operatorClasses [("y", ⟨"T", "w", "", []⟩), ("x", ⟨"", "", "", []⟩)]) = true := by
  cases h : operatorClasses [("y", ⟨"T", "w", "", []⟩), ("x", ⟨"", "", "", []⟩)] with
  | ok m =>
    exact absurd h (claim_C9.1 _ (by decide)
      ⟨("x", ⟨"", "", "", []⟩), by decide, rfl, rfl⟩ m)
  | error e => rfl

/-- Claim C10: method tokens other than `file`, `stdout` and `stderr` are
ignored rather than rejected: when no recognized token occurs in the method
string, normalization succeeds (provided the level and types are otherwise
valid) with all three sink flags false and no method-related error. -/
theorem claim_C10 (lc : LoggingConfig) (lvl : Nat) (tys extys : List String)
    (hfile : "file" ∉ methodTokens lc.Method)
    (hstdout : "stdout" ∉ methodTokens lc.Method)
    (hstderr : "stderr" ∉ methodTokens lc.Method)
    (hlv : alookup (lowerStr lc.LevelString) LogLevelNames = some lvl)
    (hpt : parseTypes lc.Types lc.ExcludedTypes (goSplitSpace lc.TypeString) = .ok (tys, extys))
    (hne : tys ≠ []) :
    normalizeLogConfig lc =
      .ok { lc with
            MethodFile := false, MethodStdout := false, MethodStderr := false,
            Level := lvl, Types := tys, ExcludedTypes := extys } := by
  rw [normalizeLogConfig]
  rw [if_neg (fun hc => hfile hc.1)]
  simp only [hlv, hpt]
  rw [if_neg (by simp [hne])]
  have h1 : decide ("file" ∈ methodTokens lc.Method) = false := decide_eq_false hfile
  have h2 : decide ("stdout" ∈ methodTokens lc.Method) = false := decide_eq_false hstdout
  have h3 : decide ("stderr" ∈ methodTokens lc.Method) = false := decide_eq_false hstderr
  simp [h1, h2, h3]

/-- Claim C10, witness: a directive whose only method token is `banana`
normalizes successfully with every sink flag false. -/
theorem claim_C10_witness :
    normalizeLogConfig ⟨"banana", false, false, false, "", "server", [], [], "info", 0⟩ =
      .ok ⟨"banana", false, false, false, "", "server", ["server"], [], "info", 20⟩ := by
  have h := claim_C10 ⟨"banana", false, false, false, "", "server", [], [], "info", 0⟩
    20 ["server"] [] (by decide) (by decide) (by decide) (by decide) (by decide) (by decide)
  exact h

/-- Faithfulness of the fuel embedding: the fuel given to the loop is never
exhausted, so `fuelExhausted` is unreachable and the embedding agrees with
the unbounded Go loop on every input. -/
theorem operatorClasses_ne_fuelExhausted (raw : List (String × OperClassConfig)) :
    operatorClasses raw ≠ .error .fuelExhausted := by
  rw [operatorClasses]
  exact loop_ne_fuelExhausted (raw.length + 2) (-1) []
    (by simp [keysOf]) (by intro x hx; simp [keysOf] at hx) (by simp)
